import Mathlib

/-!
fastwer: word and character error rate.

A shallow embedding of `src/fastwer.cpp` (tokenizer, edit-distance table, scorers) and
the properties of it that the specification states.

Modelling conventions

* A C++ `string` is a list of characters (`Str`), a `vector<T>` is a `List T`.
* `uint32_t` values are natural numbers reduced modulo `2 ^ 32` wherever the C++ code
  converts to or computes in that type; `size_t` index arithmetic is kept exact (all
  indices the code forms are products and sums of values below `2 ^ 32`, far below
  `2 ^ 64`).
* A run either returns a value (`Outcome.ok`) or stops: `Failure.assertion` is a failed
  `assert`, `Failure.outOfBounds` is an access outside a vector (undefined behaviour in
  C++).
* `double` is IEEE-754 binary64 with round-to-nearest, ties-to-even.  Every finite
  binary64 value is an integer multiple of `2 ^ (-1074)`, so a finite value is stored
  as a sign and that integer multiple.  The two zeros are identified (they compare
  equal and no division in this program has a negative zero divisor).
-/

set_option exponentiation.threshold 4000
set_option maxRecDepth 100000

/-! ## Outcomes -/

/-- Ways in which a run can stop without a value. -/
inductive Failure where
  | assertion
  | outOfBounds
deriving DecidableEq

/-- Result of running a function of the program. -/
inductive Outcome (α : Type) where
  | ok (a : α)
  | fail (e : Failure)
deriving DecidableEq

namespace Outcome

/-- Sequencing: a failure stops the run. -/
def bind {α β : Type} : Outcome α → (α → Outcome β) → Outcome β
  | ok a, k => k a
  | fail e, _ => fail e

/-- Apply a function to the returned value. -/
def map {α β : Type} (g : α → β) : Outcome α → Outcome β
  | ok a => ok (g a)
  | fail e => fail e

end Outcome

/-! ## Strings, vectors, machine integers -/

/-- A C++ `std::string`. -/
abbrev Str := List Char

/-- The macro `WHITESPACE` of `fastwer.hpp`. -/
def WHITESPACE : Char := ' '

/-- Conversion to `uint32_t`. -/
def u32 (x : Nat) : Nat := x % 2 ^ 32

/-- Subtraction in `uint32_t` arithmetic. -/
def u32sub (a b : Nat) : Nat := (u32 a + 2 ^ 32 - u32 b) % 2 ^ 32

/-- Read `v[i]`; reading outside the vector is undefined behaviour. -/
def vecGet {α : Type} (v : List α) (i : Nat) : Outcome α :=
  match v[i]? with
  | some a => Outcome.ok a
  | none => Outcome.fail Failure.outOfBounds

/-- Write `v[i] = a`; writing outside the vector is undefined behaviour. -/
def vecSet {α : Type} (v : List α) (i : Nat) (a : α) : Outcome (List α) :=
  if i < v.length then Outcome.ok (v.set i a) else Outcome.fail Failure.outOfBounds

/-- The loop `for (size_t i = lo; i < lo + count; i++) body`, threading the state. -/
def forLoop {σ : Type} (body : Nat → σ → Outcome σ) : Nat → Nat → σ → Outcome σ
  | 0, _, s => Outcome.ok s
  | count + 1, i, s => (body i s).bind (forLoop body count (i + 1))

/-! ## Tokenizer (`fastwer::tokenize`) -/

/-- One call `getline(ss, token, delim)` on the unread part of the stream: `none` when
no character could be extracted (the stream is exhausted and the call fails), otherwise
the token read and the part of the stream left unread.  The delimiter is extracted and
dropped. -/
def getline : Str → Char → Option (Str × Str)
  | [], _ => none
  | c :: rest, delim =>
    if c = delim then some ([], rest)
    else
      match getline rest delim with
      | none => some ([c], [])
      | some (token, ss) => some (c :: token, ss)

/-- The loop `while (getline(ss, token, delim)) tokens.push_back(token)`. -/
def tokenizeLoop : Nat → Str → Char → List Str → List Str
  | 0, _, _, tokens => tokens
  | fuel + 1, ss, delim, tokens =>
    match getline ss delim with
    | none => tokens
    | some (token, ss') => tokenizeLoop fuel ss' delim (tokens ++ [token])

/-- Embedding of `fastwer::tokenize`: the tokens of `str` are appended to `tokens`.
Every successful `getline` consumes at least one character, so `str.length + 1`
iterations always reach the failing call. -/
def tokenize (str : Str) (tokens : List Str) (char_level : Bool) (delim : Char) : List Str :=
  if char_level then
    str.foldl (fun tokens c => tokens ++ [[c]]) tokens
  else
    tokenizeLoop (str.length + 1) str delim tokens

/-! ## Edit-distance table (`fastwer::compute`) -/

/-- Body of the inner loop of `compute` for cell `(i, j)`. -/
def cellStep (hypo_tokens ref_tokens : List Str) (n i j : Nat) (f : List Nat) :
    Outcome (List Nat) :=
  (vecGet f ((i - 1) * n + j)).bind fun up =>
  (vecGet f (i * n + (j - 1))).bind fun left =>
  (vecSet f (i * n + j) (min (u32 (up + 1)) (u32 (left + 1)))).bind fun f1 =>
  (vecGet f1 ((i - 1) * n + (j - 1))).bind fun diag =>
  (vecGet hypo_tokens (i - 1)).bind fun h =>
  (vecGet ref_tokens (j - 1)).bind fun r =>
  (vecGet f1 (i * n + j)).bind fun cur =>
  vecSet f1 (i * n + j) (min cur (u32 (diag + if h = r then 0 else 1)))

/-- The three loops of `compute` on the table `f` (lines 27 to 35). -/
def fillTable (hypo_tokens ref_tokens : List Str) (m n : Nat) (f : List Nat) :
    Outcome (List Nat) :=
  (forLoop (fun i f => vecSet f (i * n) (u32 i)) m 0 f).bind fun f =>
  (forLoop (fun j f => vecSet f (0 * n + j) (u32 j)) n 0 f).bind fun f =>
  forLoop (fun i f => forLoop (cellStep hypo_tokens ref_tokens n i) (n - 1) 1 f) (m - 1) 1 f

/-- Embedding of `fastwer::compute`: the pair (edit count, reference length). -/
def compute (hypo ref : Str) (char_level : Bool) : Outcome (Nat × Nat) :=
  let hypo_tokens := tokenize hypo [] char_level WHITESPACE
  let ref_tokens := tokenize ref [] char_level WHITESPACE
  let m := u32 (hypo_tokens.length + 1)
  let n := u32 (ref_tokens.length + 1)
  let f := List.replicate (u32 (m * n)) 0
  (fillTable hypo_tokens ref_tokens m n f).bind fun f =>
  (vecGet f (u32sub (m * n) 1)).bind fun edits =>
  Outcome.ok (edits, u32 ref_tokens.length)

/-! ## binary64 arithmetic -/

/-- A `double`: a finite value `(-1) ^ neg * mag * 2 ^ (-1074)`, an infinity or NaN. -/
inductive Double where
  | finite (neg : Bool) (mag : Nat)
  | inf (neg : Bool)
  | nan
deriving DecidableEq

namespace Double

/-- Number of binary digits of `n`, by halving. -/
def bitLenAux : Nat → Nat → Nat
  | 0, _ => 0
  | fuel + 1, n => if n = 0 then 0 else bitLenAux fuel (n / 2) + 1

/-- Number of binary digits of `n` (`0` for `0`). -/
def bitLen (n : Nat) : Nat := bitLenAux n n

/-- The value `1.0` in units of `2 ^ (-1074)`. -/
def one : Nat := 2 ^ 1074

/-- The integer nearest to `num / den`, ties to the even integer. -/
def rne (num den : Nat) : Nat :=
  let q := num / den
  let r := num % den
  if 2 * r < den then q
  else if den < 2 * r then q + 1
  else if q % 2 = 0 then q else q + 1

/-- A finite value from sign and magnitude; zero carries no sign. -/
def mkFinite (neg : Bool) (mag : Nat) : Double :=
  if mag = 0 then finite false 0 else finite neg mag

/-- Correct rounding to binary64 of the exact value `num / den` (in units of
`2 ^ (-1074)`, with `den > 0`): below `2 ^ 53` units the representable values are the
integers; a value with `b > 53` binary digits is rounded to a multiple of
`2 ^ (b - 53)`; a result of `2 ^ 1024` or more overflows to infinity. -/
def roundQ (neg : Bool) (num den : Nat) : Double :=
  let s := bitLen (num / den) - 53
  let mag := rne num (den * 2 ^ s) * 2 ^ s
  if 2 ^ 2098 ≤ mag then inf neg else mkFinite neg mag

/-- Conversion of an unsigned integer to `double`. -/
def ofNat (n : Nat) : Double := roundQ false (n * one) 1

/-- Product of two doubles. -/
def mul : Double → Double → Double
  | finite na a, finite nb b => roundQ (xor na nb) (a * b) one
  | finite na a, inf nb => if a = 0 then nan else inf (xor na nb)
  | inf na, finite nb b => if b = 0 then nan else inf (xor na nb)
  | inf na, inf nb => inf (xor na nb)
  | _, _ => nan

/-- Quotient of two doubles. -/
def div : Double → Double → Double
  | finite na a, finite nb b =>
    if b = 0 then (if a = 0 then nan else inf (xor na nb))
    else roundQ (xor na nb) (a * one) b
  | finite _ _, inf _ => finite false 0
  | inf na, finite nb _ => inf (xor na nb)
  | _, _ => nan

/-- Sum of two doubles. -/
def add : Double → Double → Double
  | finite na a, finite nb b =>
    if na = nb then roundQ na (a + b) 1
    else if b ≤ a then roundQ na (a - b) 1
    else roundQ nb (b - a) 1
  | finite _ _, inf nb => inf nb
  | inf na, finite _ _ => inf na
  | inf na, inf nb => if na = nb then inf na else nan
  | _, _ => nan

/-- The C library function `round`: nearest integer, halfway cases away from zero. -/
def round : Double → Double
  | finite neg a => mkFinite neg ((2 * a + one) / (2 * one) * one)
  | d => d

/-- The double nearest to the decimal literal `num / den`. -/
def ofDecimal (num den : Nat) : Double := roundQ false (num * one) den

/-- The rational value of a finite double. -/
def toRat : Double → Option ℚ
  | finite neg a => some ((if neg then -1 else 1) * (a : ℚ) / (one : ℚ))
  | _ => none

/-- A double is finite when it is neither an infinity nor NaN. -/
def isFinite : Double → Bool
  | finite _ _ => true
  | _ => false

end Double

/-! ## Scorers -/

/-- The table `pow10` of `round_to_digits`. -/
def pow10 : List Double :=
  [Double.ofNat 1, Double.ofNat 10, Double.ofNat 100, Double.ofNat 1000,
   Double.ofNat 10000, Double.ofNat 100000, Double.ofNat 1000000]

/-- Embedding of `fastwer::round_to_digits`. -/
def round_to_digits (d : Double) (digits : Nat) : Outcome Double :=
  if digits < 7 then
    (vecGet pow10 digits).bind fun p =>
    (vecGet pow10 digits).bind fun p' =>
    Outcome.ok (Double.div (Double.round (Double.mul d p)) p')
  else Outcome.fail Failure.assertion

/-- Embedding of `fastwer::score_sent`. -/
def score_sent (hypo ref : Str) (char_level : Bool) : Outcome Double :=
  (compute hypo ref char_level).bind fun stats =>
  round_to_digits
    (Double.div (Double.mul (Double.ofNat 100) (Double.ofNat stats.1)) (Double.ofNat stats.2)) 4

/-- State of the loop of `score`: the vector `stats`, `total_edits`, `total_lengths`. -/
structure ScoreState where
  stats : List (Nat × Nat)
  total_edits : Double
  total_lengths : Double

/-- Body of the loop of `score` for example `i`. -/
def scoreStep (hypo ref : List Str) (char_level : Bool) (i : Nat) (st : ScoreState) :
    Outcome ScoreState :=
  (vecGet hypo i).bind fun h =>
  (vecGet ref i).bind fun r =>
  (compute h r char_level).bind fun c =>
  let stats := st.stats ++ [c]
  (vecGet stats (stats.length - 1)).bind fun b1 =>
  let total_edits := Double.add st.total_edits (Double.ofNat b1.1)
  (vecGet stats (stats.length - 1)).bind fun b2 =>
  let total_lengths := Double.add st.total_lengths (Double.ofNat b2.2)
  Outcome.ok ⟨stats, total_edits, total_lengths⟩

/-- Embedding of `fastwer::score`. -/
def score (hypo ref : List Str) (char_level : Bool) : Outcome Double :=
  let n_examples := hypo.length
  if n_examples = ref.length then
    let stats : List (Nat × Nat) := List.replicate n_examples (0, 0)
    (forLoop (scoreStep hypo ref char_level) n_examples 0
      ⟨stats, Double.ofNat 0, Double.ofNat 0⟩).bind fun st =>
    round_to_digits
      (Double.div (Double.mul (Double.ofNat 100) st.total_edits) st.total_lengths) 4
  else Outcome.fail Failure.assertion

/-- The running total kept by the loop of `score`: starting from `0.0`, each count is
converted to `double` and added. -/
def accumulate (xs : List Nat) : Double :=
  xs.foldl (fun acc x => Double.add acc (Double.ofNat x)) (Double.ofNat 0)

/-- Rounding of a rational to the nearest integer, an exact half away from zero:
`floor (x + 1/2)` for `x ≥ 0`, and `R (-x) = - R x`. -/
def roundHalfAway (q : ℚ) : ℤ :=
  if 0 ≤ q then ⌊q + 1 / 2⌋ else -⌊-q + 1 / 2⌋

/-! ## Edit scripts and the edit distance -/

/-- One edit of a token sequence: a single token is inserted, deleted or substituted at
an arbitrary position. -/
inductive EditStep {α : Type} : List α → List α → Prop where
  | ins (l r : List α) (t : α) : EditStep (l ++ r) (l ++ t :: r)
  | del (l r : List α) (t : α) : EditStep (l ++ t :: r) (l ++ r)
  | sub (l r : List α) (s t : α) : EditStep (l ++ s :: r) (l ++ t :: r)

/-- Holds when some sequence of exactly `k` edits turns `a` into `b`. -/
inductive EditScript {α : Type} : Nat → List α → List α → Prop where
  | done (a : List α) : EditScript 0 a a
  | step {k : Nat} {a b c : List α} : EditStep a b → EditScript k b c → EditScript (k + 1) a c

/-- One row of the Levenshtein recurrence: the distances from `x :: xs` to every suffix
of the second sequence, given the distances `prev` from `xs`. -/
def levRow {α : Type} [DecidableEq α] (x : α) (prev : List α → Nat) : List α → Nat
  | [] => prev [] + 1
  | y :: ys =>
    min (prev (y :: ys) + 1) (min (levRow x prev ys + 1) (prev ys + if x = y then 0 else 1))

/-- Levenshtein distance with unit costs, by the textbook recurrence. -/
def lev {α : Type} [DecidableEq α] : List α → List α → Nat
  | [], ys => ys.length
  | x :: xs, ys => levRow x (lev xs) ys

/-- The integer `y` rounded to 53 significant binary digits, ties to even: the magnitude
that `roundQ` gives to the exact value `y / 1`. -/
def Double.roundInt (y : Nat) : Nat :=
  Double.rne y (2 ^ (Double.bitLen y - 53)) * 2 ^ (Double.bitLen y - 53)

/-- Holds for the values a running total of non-negative counts can take: a finite
non-negative value or positive infinity. -/
def Double.NonNeg : Double → Prop
  | Double.finite neg _ => neg = false
  | Double.inf neg => neg = false
  | Double.nan => False

/-! ## Comparison of doubles -/

/-- The comparison `a < b` of two doubles: false when either is NaN. -/
def Double.lt : Double → Double → Bool
  | Double.nan, _ => false
  | _, Double.nan => false
  | Double.inf na, Double.inf nb => na && !nb
  | Double.inf na, Double.finite _ _ => na
  | Double.finite _ _, Double.inf nb => !nb
  | Double.finite na a, Double.finite nb b =>
    decide ((if na then -(a : Int) else (a : Int)) < (if nb then -(b : Int) else (b : Int)))

/-! ## Literal split -/

/-- Modelled from the claim's words: the literal split of a string on a delimiter, one
segment between any two neighbouring occurrences of the delimiter, before the first and
after the last (so a string without the delimiter is one segment). -/
def splitLiteral (c : Char) : Str → List Str
  | [] => [[]]
  | x :: xs =>
    if x = c then [] :: splitLiteral c xs
    else
      match splitLiteral c xs with
      | seg :: segs => (x :: seg) :: segs
      | [] => [[x]]

/-- Modelled from the claim's words: a list of segments with its last segment removed
when that segment is empty. -/
def dropFinalEmpty (segs : List Str) : List Str :=
  if segs.getLast? = some [] then segs.dropLast else segs

/-! ## Instrumented table

The loops of `compute` once more, on a table whose cells record whether they have been
written: a cell is `none` until its first write, and reading a cell that has not been
written stops the run with `Failure.assertion`. -/

/-- Read a cell of the instrumented table. -/
def vecGetW (f : List (Option Nat)) (i : Nat) : Outcome Nat :=
  match f[i]? with
  | some (some v) => Outcome.ok v
  | some none => Outcome.fail Failure.assertion
  | none => Outcome.fail Failure.outOfBounds

/-- Body of the inner loop of `compute` on the instrumented table. -/
def cellStepW (hypo_tokens ref_tokens : List Str) (n i j : Nat) (f : List (Option Nat)) :
    Outcome (List (Option Nat)) :=
  (vecGetW f ((i - 1) * n + j)).bind fun up =>
  (vecGetW f (i * n + (j - 1))).bind fun left =>
  (vecSet f (i * n + j) (some (min (u32 (up + 1)) (u32 (left + 1))))).bind fun f1 =>
  (vecGetW f1 ((i - 1) * n + (j - 1))).bind fun diag =>
  (vecGet hypo_tokens (i - 1)).bind fun h =>
  (vecGet ref_tokens (j - 1)).bind fun r =>
  (vecGetW f1 (i * n + j)).bind fun cur =>
  vecSet f1 (i * n + j) (some (min cur (u32 (diag + if h = r then 0 else 1))))

/-- The three loops of `compute` on the instrumented table. -/
def fillTableW (hypo_tokens ref_tokens : List Str) (m n : Nat) (f : List (Option Nat)) :
    Outcome (List (Option Nat)) :=
  (forLoop (fun i f => vecSet f (i * n) (some (u32 i))) m 0 f).bind fun f =>
  (forLoop (fun j f => vecSet f (0 * n + j) (some (u32 j))) n 0 f).bind fun f =>
  forLoop (fun i f => forLoop (cellStepW hypo_tokens ref_tokens n i) (n - 1) 1 f) (m - 1) 1 f

/-! ## Auxiliary predicates for the proofs -/

/-- Holds when a run can stop only by an access outside a vector. -/
def OobOnly {α : Type} (o : Outcome α) : Prop :=
  ∀ e, o = Outcome.fail e → e = Failure.outOfBounds

/-- State of the table while `compute` fills it: the table has `m * n` cells, and every
cell in a row above `i`, in column `0`, or in row `i` left of column `j` holds the
distance between the corresponding leading tokens. -/
def TableInv (H R : List Str) (m n i j : Nat) (f : List Nat) : Prop :=
  f.length = m * n ∧
    ∀ i' j', i' < m → j' < n → (i' < i ∨ j' = 0 ∨ (i' = i ∧ j' < j)) →
      f[i' * n + j']? = some (lev (H.take i') (R.take j'))

/-- Invariant of the instrumented table, as `TableInv`: the cells already reached have
been written and hold the distances. -/
def TableInvW (H R : List Str) (m n i j : Nat) (f : List (Option Nat)) : Prop :=
  f.length = m * n ∧
    ∀ i' j', i' < m → j' < n → (i' < i ∨ j' = 0 ∨ (i' = i ∧ j' < j)) →
      f[i' * n + j']? = some (some (lev (H.take i') (R.take j')))

/-! ## The recurrence computes the least number of edits -/

section Lev
variable {α : Type}

theorem lev_nil_left [DecidableEq α] (ys : List α) : lev [] ys = ys.length := rfl

theorem lev_cons_nil [DecidableEq α] (x : α) (xs : List α) : lev (x :: xs) [] = lev xs [] + 1 := rfl

theorem lev_cons_cons [DecidableEq α] (x y : α) (xs ys : List α) :
    lev (x :: xs) (y :: ys) =
      min (lev xs (y :: ys) + 1)
        (min (lev (x :: xs) ys + 1) (lev xs ys + if x = y then 0 else 1)) := rfl

theorem lev_nil_right [DecidableEq α] (xs : List α) : lev xs [] = xs.length := by
  induction xs with
  | nil => rfl
  | cons x xs ih => rw [lev_cons_nil, ih, List.length_cons]

theorem lev_le_insert_right [DecidableEq α] (a : List α) (y : α) (ys : List α) :
    lev a (y :: ys) ≤ lev a ys + 1 := by
  cases a with
  | nil => simp [lev_nil_left]
  | cons x xs =>
    rw [lev_cons_cons]
    exact le_trans (min_le_right _ _) (min_le_left _ _)

theorem lev_cons_le [DecidableEq α] (x : α) (xs c : List α) : lev (x :: xs) c ≤ lev xs c + 1 := by
  cases c with
  | nil => rw [lev_cons_nil]
  | cons y ys => rw [lev_cons_cons]; exact min_le_left _ _

theorem lev_le_cons [DecidableEq α] (x : α) (xs c : List α) : lev xs c ≤ lev (x :: xs) c + 1 := by
  induction c with
  | nil => rw [lev_cons_nil]; omega
  | cons y ys ih =>
    have h1 := lev_le_insert_right xs y ys
    rw [lev_cons_cons]
    simp only [le_min_iff, ge_iff_le]
    have h2 : lev xs (y :: ys) ≤ min (lev xs (y :: ys) + 1)
        (min (lev (x :: xs) ys + 1) (lev xs ys + if x = y then 0 else 1)) + 1 := by
      rw [Nat.min_def, Nat.min_def]
      split_ifs <;> omega
    exact h2

theorem lev_subst_le [DecidableEq α] (x z : α) (xs c : List α) : lev (x :: xs) c ≤ lev (z :: xs) c + 1 := by
  induction c with
  | nil => rw [lev_cons_nil, lev_cons_nil]; omega
  | cons y ys ih =>
    rw [lev_cons_cons, lev_cons_cons]
    simp only [Nat.min_def]
    split_ifs <;> omega

theorem lev_cons_congr [DecidableEq α] (a b : List α) (z : α) (h : ∀ c, lev a c ≤ lev b c + 1) :
    ∀ c, lev (z :: a) c ≤ lev (z :: b) c + 1 := by
  intro c
  induction c with
  | nil => rw [lev_cons_nil, lev_cons_nil]; have := h []; omega
  | cons y ys ih =>
    have h1 := h (y :: ys)
    have h2 := h ys
    rw [lev_cons_cons, lev_cons_cons]
    simp only [Nat.min_def]
    split_ifs <;> omega

theorem lev_editStep_le [DecidableEq α] {a b : List α} (h : EditStep a b) : ∀ c, lev a c ≤ lev b c + 1 := by
  cases h with
  | ins l r t =>
    induction l with
    | nil => intro c; exact lev_le_cons t r c
    | cons z l ih => exact lev_cons_congr _ _ z ih
  | del l r t =>
    induction l with
    | nil => intro c; exact lev_cons_le t r c
    | cons z l ih => exact lev_cons_congr _ _ z ih
  | sub l r s t =>
    induction l with
    | nil => intro c; exact lev_subst_le s t r c
    | cons z l ih => exact lev_cons_congr _ _ z ih

theorem lev_self [DecidableEq α] (a : List α) : lev a a = 0 := by
  induction a with
  | nil => rfl
  | cons x xs ih => rw [lev_cons_cons, ih]; simp

theorem lev_le_of_editScript [DecidableEq α] {k : Nat} {a b : List α} (h : EditScript k a b) : lev a b ≤ k := by
  induction h with
  | done a => rw [lev_self]
  | step hs _ ih => exact le_trans (lev_editStep_le hs _) (Nat.succ_le_succ ih)

theorem editStep_cons {a b : List α} (z : α) (h : EditStep a b) : EditStep (z :: a) (z :: b) := by
  cases h with
  | ins l r t => exact EditStep.ins (z :: l) r t
  | del l r t => exact EditStep.del (z :: l) r t
  | sub l r s t => exact EditStep.sub (z :: l) r s t

theorem editScript_cons {k : Nat} {a b : List α} (z : α) (h : EditScript k a b) :
    EditScript k (z :: a) (z :: b) := by
  induction h with
  | done a => exact EditScript.done _
  | step hs _ ih => exact EditScript.step (editStep_cons z hs) ih

theorem editScript_insert_all (ys : List α) : EditScript ys.length [] ys := by
  induction ys with
  | nil => exact EditScript.done _
  | cons y ys ih => exact EditScript.step (EditStep.ins [] [] y) (editScript_cons y ih)

theorem editScript_lev [DecidableEq α] (a b : List α) : EditScript (lev a b) a b := by
  induction a generalizing b with
  | nil => rw [lev_nil_left]; exact editScript_insert_all b
  | cons x xs ihx =>
    induction b with
    | nil =>
      rw [lev_cons_nil]
      exact EditScript.step (EditStep.del [] xs x) (ihx [])
    | cons y ys ihy =>
      rw [lev_cons_cons]
      have hdel : EditScript (lev xs (y :: ys) + 1) (x :: xs) (y :: ys) :=
        EditScript.step (EditStep.del [] xs x) (ihx (y :: ys))
      have hins : EditScript (lev (x :: xs) ys + 1) (x :: xs) (y :: ys) :=
        EditScript.step (EditStep.ins [] (x :: xs) y) (editScript_cons y ihy)
      have hsub : EditScript (lev xs ys + if x = y then 0 else 1) (x :: xs) (y :: ys) := by
        by_cases hxy : x = y
        · subst hxy; simpa using editScript_cons x (ihx ys)
        · simpa [hxy] using EditScript.step (EditStep.sub [] xs x y) (editScript_cons y (ihx ys))
      rcases min_choice (lev xs (y :: ys) + 1)
          (min (lev (x :: xs) ys + 1) (lev xs ys + if x = y then 0 else 1)) with h | h
      · rw [h]; exact hdel
      · rw [h]
        rcases min_choice (lev (x :: xs) ys + 1) (lev xs ys + if x = y then 0 else 1) with h | h
        · rw [h]; exact hins
        · rw [h]; exact hsub

theorem editStep_reverse {a b : List α} (h : EditStep a b) : EditStep a.reverse b.reverse := by
  cases h with
  | ins l r t => simpa using EditStep.ins r.reverse l.reverse t
  | del l r t => simpa using EditStep.del r.reverse l.reverse t
  | sub l r s t => simpa using EditStep.sub r.reverse l.reverse s t

theorem editScript_reverse {k : Nat} {a b : List α} (h : EditScript k a b) :
    EditScript k a.reverse b.reverse := by
  induction h with
  | done a => exact EditScript.done _
  | step hs _ ih => exact EditScript.step (editStep_reverse hs) ih

theorem editStep_symm {a b : List α} (h : EditStep a b) : EditStep b a := by
  cases h with
  | ins l r t => exact EditStep.del l r t
  | del l r t => exact EditStep.ins l r t
  | sub l r s t => exact EditStep.sub l r t s

theorem editScript_snoc {k : Nat} {a b c : List α} (h : EditScript k a b) (hs : EditStep b c) :
    EditScript (k + 1) a c := by
  induction h with
  | done a => exact EditScript.step hs (EditScript.done _)
  | step hs1 _ ih => exact EditScript.step hs1 (ih hs)

theorem editScript_symm {k : Nat} {a b : List α} (h : EditScript k a b) : EditScript k b a := by
  induction h with
  | done a => exact EditScript.done _
  | step hs _ ih => exact editScript_snoc ih (editStep_symm hs)

theorem lev_reverse [DecidableEq α] (a b : List α) : lev a.reverse b.reverse = lev a b := by
  apply le_antisymm
  · exact lev_le_of_editScript (editScript_reverse (editScript_lev a b))
  · have h := editScript_reverse (editScript_lev a.reverse b.reverse)
    rw [List.reverse_reverse, List.reverse_reverse] at h
    exact lev_le_of_editScript h

theorem lev_symm [DecidableEq α] (a b : List α) : lev a b = lev b a :=
  le_antisymm (lev_le_of_editScript (editScript_symm (editScript_lev b a)))
    (lev_le_of_editScript (editScript_symm (editScript_lev a b)))

theorem lev_snoc_snoc [DecidableEq α] (a b : List α) (x y : α) :
    lev (a ++ [x]) (b ++ [y]) =
      min (lev a (b ++ [y]) + 1)
        (min (lev (a ++ [x]) b + 1) (lev a b + if x = y then 0 else 1)) := by
  rw [← lev_reverse (a ++ [x]) (b ++ [y]), ← lev_reverse a (b ++ [y]),
    ← lev_reverse (a ++ [x]) b, ← lev_reverse a b]
  simp only [List.reverse_append, List.reverse_cons, List.reverse_nil, List.nil_append,
    List.singleton_append]
  exact lev_cons_cons x y _ _

end Lev

/-! ## Outcomes, vectors and loops -/

theorem vecGet_eq_ok {α : Type} {v : List α} {i : Nat} {a : α} (h : v[i]? = some a) :
    vecGet v i = Outcome.ok a := by
  simp [vecGet, h]

theorem vecGet_ok_lt {α : Type} {v : List α} {i : Nat} {a : α}
    (h : vecGet v i = Outcome.ok a) : i < v.length := by
  unfold vecGet at h
  cases hv : v[i]? with
  | none => rw [hv] at h; cases h
  | some b => exact (List.getElem?_eq_some_iff.mp hv).1

theorem vecSet_eq_ok {α : Type} {v : List α} {i : Nat} (a : α) (h : i < v.length) :
    vecSet v i a = Outcome.ok (v.set i a) := by
  simp [vecSet, h]

theorem vecSet_ok_lt {α : Type} {v w : List α} {i : Nat} {a : α}
    (h : vecSet v i a = Outcome.ok w) : i < v.length ∧ w = v.set i a := by
  unfold vecSet at h
  split_ifs at h with hlt
  · cases h; exact ⟨hlt, rfl⟩

theorem Outcome.bind_eq_ok {α β : Type} {o : Outcome α} {k : α → Outcome β} {b : β}
    (h : o.bind k = Outcome.ok b) : ∃ a, o = Outcome.ok a ∧ k a = Outcome.ok b := by
  cases o with
  | ok a => exact ⟨a, rfl, h⟩
  | fail e => cases h

/-- A loop whose body keeps an invariant returns, and the invariant holds at the end. -/
theorem forLoop_inv {σ : Type} (body : Nat → σ → Outcome σ) (Inv : Nat → σ → Prop) :
    ∀ (count lo : Nat) (s : σ), Inv lo s →
      (∀ i s, lo ≤ i → i < lo + count → Inv i s →
        ∃ s', body i s = Outcome.ok s' ∧ Inv (i + 1) s') →
      ∃ s', forLoop body count lo s = Outcome.ok s' ∧ Inv (lo + count) s' := by
  intro count
  induction count with
  | zero => intro lo s h0 _; exact ⟨s, rfl, h0⟩
  | succ count ih =>
    intro lo s h0 hstep
    obtain ⟨s1, hb, h1⟩ := hstep lo s (le_refl _) (by omega) h0
    obtain ⟨s2, hl, h2⟩ := ih (lo + 1) s1 h1
      (fun i t hlo hhi hi => hstep i t (by omega) (by omega) hi)
    refine ⟨s2, ?_, ?_⟩
    · simp only [forLoop, hb, Outcome.bind]; exact hl
    · have : lo + (count + 1) = lo + 1 + count := by omega
      rw [this]; exact h2

/-- In a loop that returns, every iteration returned, from a state satisfying any
property that the body preserves. -/
theorem forLoop_ok_body {σ : Type} (body : Nat → σ → Outcome σ) (P : σ → Prop)
    (hP : ∀ i s t, P s → body i s = Outcome.ok t → P t) :
    ∀ (count lo : Nat) (s s' : σ), P s → forLoop body count lo s = Outcome.ok s' →
      P s' ∧ ∀ i, lo ≤ i → i < lo + count → ∃ s1 t, P s1 ∧ body i s1 = Outcome.ok t := by
  intro count
  induction count with
  | zero =>
    intro lo s s' hs h
    simp only [forLoop] at h
    cases h
    exact ⟨hs, fun i h1 h2 => by omega⟩
  | succ count ih =>
    intro lo s s' hs h
    simp only [forLoop] at h
    obtain ⟨t, hb, hl⟩ := Outcome.bind_eq_ok h
    obtain ⟨hs', hrest⟩ := ih (lo + 1) t s' (hP lo s t hs hb) hl
    refine ⟨hs', fun i h1 h2 => ?_⟩
    by_cases hi : i = lo
    · subst hi; exact ⟨s, t, hs, hb⟩
    · exact hrest i (by omega) (by omega)

theorem oobOnly_vecGet {α : Type} (v : List α) (i : Nat) : OobOnly (vecGet v i) := by
  intro e h
  unfold vecGet at h
  cases hv : v[i]? with
  | none => rw [hv] at h; cases h; rfl
  | some b => rw [hv] at h; cases h

theorem oobOnly_vecSet {α : Type} (v : List α) (i : Nat) (a : α) :
    OobOnly (vecSet v i a) := by
  intro e h
  unfold vecSet at h
  split_ifs at h
  cases h; rfl

theorem oobOnly_ok {α : Type} (a : α) : OobOnly (Outcome.ok a) := by
  intro e h; cases h

theorem oobOnly_bind {α β : Type} {o : Outcome α} {k : α → Outcome β}
    (ho : OobOnly o) (hk : ∀ a, OobOnly (k a)) : OobOnly (o.bind k) := by
  cases o with
  | ok a => exact hk a
  | fail e => intro e' h; cases h; exact ho e rfl

theorem oobOnly_forLoop {σ : Type} (body : Nat → σ → Outcome σ)
    (hb : ∀ i s, OobOnly (body i s)) :
    ∀ (count lo : Nat) (s : σ), OobOnly (forLoop body count lo s) := by
  intro count
  induction count with
  | zero => intro lo s; exact oobOnly_ok s
  | succ count ih => intro lo s; exact oobOnly_bind (hb lo s) (fun t => ih (lo + 1) t)

theorem eq_fail_of_oobOnly {α : Type} {o : Outcome α} (ho : OobOnly o)
    (hne : ∀ a, o ≠ Outcome.ok a) : o = Outcome.fail Failure.outOfBounds := by
  cases o with
  | ok a => exact absurd rfl (hne a)
  | fail e => rw [ho e rfl]

theorem lev_le_max {α : Type} [DecidableEq α] (a b : List α) :
    lev a b ≤ max a.length b.length := by
  induction a generalizing b with
  | nil => simp [lev_nil_left]
  | cons x xs ih =>
    cases b with
    | nil => simp [lev_nil_right]
    | cons y ys =>
      have h := ih ys
      rw [lev_cons_cons]
      have h3 : (lev xs ys + if x = y then 0 else 1) ≤ lev xs ys + 1 := by split_ifs <;> omega
      have h4 := le_trans (min_le_right (lev xs (y :: ys) + 1) _)
        (le_trans (min_le_right (lev (x :: xs) ys + 1) _) h3)
      simp only [List.length_cons]
      rcases le_total xs.length ys.length with hl | hl
      · rw [max_eq_right hl] at h; rw [max_eq_right (by omega)]; omega
      · rw [max_eq_left hl] at h; rw [max_eq_left (by omega)]; omega

theorem length_le_lev_add {α : Type} [DecidableEq α] (a b : List α) :
    a.length ≤ lev a b + b.length := by
  induction a generalizing b with
  | nil => simp
  | cons x xs ih =>
    induction b with
    | nil => simp [lev_nil_right]
    | cons y ys ihy =>
      have h1 := ih (y :: ys)
      have h2 := ih ys
      rw [lev_cons_cons]
      simp only [List.length_cons] at *
      simp only [Nat.min_def]
      split_ifs <;> omega

theorem table_index_inj (n i j i' j' : Nat) (hj : j < n) (hj' : j' < n)
    (h : i' * n + j' = i * n + j) : i' = i ∧ j' = j := by
  have hi : i' = i := by
    rcases Nat.lt_trichotomy i' i with hlt | heq | hgt
    · have : (i' + 1) * n ≤ i * n := Nat.mul_le_mul_right n hlt
      rw [Nat.add_mul] at this; omega
    · exact heq
    · have : (i + 1) * n ≤ i' * n := Nat.mul_le_mul_right n hgt
      rw [Nat.add_mul] at this; omega
  subst hi
  exact ⟨rfl, by omega⟩

theorem table_index_lt {m n i j : Nat} (hi : i < m) (hj : j < n) : i * n + j < m * n := by
  have : (i + 1) * n ≤ m * n := Nat.mul_le_mul_right n hi
  rw [Nat.add_mul] at this; omega

theorem add_le_mul_of_pos {m n : Nat} (hm : 1 ≤ m) (hn : 1 ≤ n) : m + n ≤ m * n + 1 := by
  obtain ⟨a, rfl⟩ : ∃ a, m = a + 1 := ⟨m - 1, by omega⟩
  obtain ⟨b, rfl⟩ : ∃ b, n = b + 1 := ⟨n - 1, by omega⟩
  have : (a + 1) * (b + 1) = a * b + a + b + 1 := by ring
  omega

theorem u32_of_lt {x : Nat} (h : x < 2 ^ 32) : u32 x = x := Nat.mod_eq_of_lt h

theorem take_succ_of_getElem? {α : Type} {l : List α} {k : Nat} {a : α} (h : l[k]? = some a) :
    l.take (k + 1) = l.take k ++ [a] := by
  rw [List.take_succ, h]; rfl

theorem cellStep_spec (H R : List Str) (m n a b : Nat) (f : List Nat)
    (hi : a + 1 < m) (hj : b + 1 < n) (hH : m ≤ H.length + 1) (hR : n ≤ R.length + 1)
    (hmn : m * n < 2 ^ 32) (hinv : TableInv H R m n (a + 1) (b + 1) f) :
    ∃ f', cellStep H R n (a + 1) (b + 1) f = Outcome.ok f' ∧
      TableInv H R m n (a + 1) (b + 1 + 1) f' := by
  obtain ⟨hlen, hcells⟩ := hinv
  have hup := hcells a (b + 1) (by omega) hj (Or.inl (by omega))
  have hleft := hcells (a + 1) b hi (by omega) (Or.inr (Or.inr ⟨rfl, by omega⟩))
  have hdiag := hcells a b (by omega) (by omega) (Or.inl (by omega))
  obtain ⟨h, hh⟩ : ∃ h, H[a]? = some h :=
    ⟨H[a], List.getElem?_eq_getElem (by omega)⟩
  obtain ⟨r, hr⟩ : ∃ r, R[b]? = some r :=
    ⟨R[b], List.getElem?_eq_getElem (by omega)⟩
  have hidx : (a + 1) * n + (b + 1) < f.length := by
    rw [hlen]; exact table_index_lt hi hj
  have hsum := add_le_mul_of_pos (show 1 ≤ m by omega) (show 1 ≤ n by omega)
  have hbound : ∀ i' j', i' < m → j' < n → i' + j' + 2 ≤ m + n →
      lev (H.take i') (R.take j') + 1 < 2 ^ 32 := by
    intro i' j' h1 h2 h3
    have := lev_le_max (H.take i') (R.take j')
    have hl1 : (H.take i').length ≤ i' := by simp
    have hl2 : (R.take j').length ≤ j' := by simp
    have : max (H.take i').length (R.take j').length ≤ i' + j' := by
      rw [max_le_iff]; omega
    omega
  have hne : (a + 1) * n + (b + 1) ≠ a * n + b := by
    intro h'
    have := (table_index_inj n a b (a + 1) (b + 1) (show b < n by omega) hj h').1
    omega
  set up := lev (H.take a) (R.take (b + 1)) with hupd
  set left := lev (H.take (a + 1)) (R.take b) with hleftd
  set diag := lev (H.take a) (R.take b) with hdiagd
  have hu1 : u32 (up + 1) = up + 1 := u32_of_lt (hbound a (b + 1) (by omega) hj (by omega))
  have hu2 : u32 (left + 1) = left + 1 :=
    u32_of_lt (hbound (a + 1) b hi (by omega) (by omega))
  have hu3 : u32 (diag + if h = r then 0 else 1) = diag + if h = r then 0 else 1 := by
    apply u32_of_lt
    have := hbound a b (by omega) (by omega) (by omega)
    split_ifs <;> omega
  have hval : min (min (up + 1) (left + 1)) (diag + if h = r then 0 else 1) =
      lev (H.take (a + 1)) (R.take (b + 1)) := by
    rw [take_succ_of_getElem? hh, take_succ_of_getElem? hr, lev_snoc_snoc,
      ← take_succ_of_getElem? hh, ← take_succ_of_getElem? hr, min_assoc]
  refine ⟨(f.set ((a + 1) * n + (b + 1)) (min (up + 1) (left + 1))).set
      ((a + 1) * n + (b + 1)) (lev (H.take (a + 1)) (R.take (b + 1))), ?_, ?_, ?_⟩
  · unfold cellStep
    simp only [Nat.add_sub_cancel]
    rw [vecGet_eq_ok hup, Outcome.bind, vecGet_eq_ok hleft, Outcome.bind,
      vecSet_eq_ok _ hidx, Outcome.bind]
    have hdiag1 : (f.set ((a + 1) * n + (b + 1)) (min (u32 (up + 1)) (u32 (left + 1))))[
        a * n + b]? = some diag := by
      rw [List.getElem?_set_ne hne]; exact hdiag
    have hcur : (f.set ((a + 1) * n + (b + 1)) (min (u32 (up + 1)) (u32 (left + 1))))[
        (a + 1) * n + (b + 1)]? = some (min (u32 (up + 1)) (u32 (left + 1))) :=
      List.getElem?_set_self hidx
    rw [vecGet_eq_ok hdiag1, Outcome.bind, vecGet_eq_ok hh, Outcome.bind,
      vecGet_eq_ok hr, Outcome.bind, vecGet_eq_ok hcur, Outcome.bind,
      vecSet_eq_ok _ (by rw [List.length_set]; exact hidx), hu1, hu2, hu3, hval]
  · simp [hlen]
  · intro i' j' hi' hj' hfilled
    by_cases hsame : i' * n + j' = (a + 1) * n + (b + 1)
    · obtain ⟨rfl, rfl⟩ := table_index_inj n (a + 1) (b + 1) i' j' hj hj' hsame
      exact List.getElem?_set_self (by rw [List.length_set]; exact hidx)
    · rw [List.getElem?_set_ne (Ne.symm hsame), List.getElem?_set_ne (Ne.symm hsame)]
      apply hcells i' j' hi' hj'
      rcases hfilled with h1 | h1 | ⟨h1, h2⟩
      · exact Or.inl h1
      · exact Or.inr (Or.inl h1)
      · refine Or.inr (Or.inr ⟨h1, ?_⟩)
        rcases Nat.lt_or_ge j' (b + 1) with h3 | h3
        · exact h3
        · exfalso; apply hsame; rw [h1]; congr 1; omega

theorem lev_take_zero_left (H R : List Str) (j : Nat) (hj : j ≤ R.length) :
    lev (H.take 0) (R.take j) = j := by
  simp [lev_nil_left, hj]

theorem lev_take_zero_right (H R : List Str) (i : Nat) (hi : i ≤ H.length) :
    lev (H.take i) (R.take 0) = i := by
  simp [lev_nil_right, hi]

theorem fillTable_spec (H R : List Str) (m n : Nat) (hm : 1 ≤ m) (hn : 1 ≤ n)
    (hH : m ≤ H.length + 1) (hR : n ≤ R.length + 1) (hmn : m * n < 2 ^ 32) :
    ∃ f, fillTable H R m n (List.replicate (m * n) 0) = Outcome.ok f ∧
      f.length = m * n ∧
      ∀ i j, i < m → j < n → f[i * n + j]? = some (lev (H.take i) (R.take j)) := by
  have hmlt : m < 2 ^ 32 := lt_of_le_of_lt (Nat.le_mul_of_pos_right m hn) hmn
  have hnlt : n < 2 ^ 32 := lt_of_le_of_lt (Nat.le_mul_of_pos_left n hm) hmn
  -- first loop: column 0
  obtain ⟨f1, hf1, hlen1, hcol1⟩ := forLoop_inv (fun i f => vecSet f (i * n) (u32 i))
    (fun k f => f.length = m * n ∧ ∀ i, i < k → f[i * n]? = some i) m 0
    (List.replicate (m * n) 0) ⟨by simp, fun i hi => by omega⟩
    (by
      intro k f _ hk ⟨hlen, hcol⟩
      have hidx : k * n < f.length := by
        rw [hlen]; simpa using table_index_lt (show k < m by omega) (show 0 < n by omega)
      refine ⟨f.set (k * n) (u32 k), vecSet_eq_ok _ hidx, by simp [hlen], ?_⟩
      intro i hi
      by_cases hik : i = k
      · subst hik
        rw [List.getElem?_set_self hidx, u32_of_lt (by omega)]
      · have hne : k * n ≠ i * n := by
          intro h
          have := (table_index_inj n i 0 k 0 (by omega)
            (by omega) (by simpa using h)).1
          omega
        rw [List.getElem?_set_ne hne]
        exact hcol i (by omega))
  -- second loop: row 0
  obtain ⟨f2, hf2, hlen2, hcol2, hrow2⟩ := forLoop_inv (fun j f => vecSet f (0 * n + j) (u32 j))
    (fun k f => f.length = m * n ∧ (∀ i, i < m → f[i * n]? = some i) ∧
      ∀ j, j < k → f[j]? = some j) n 0 f1
    ⟨hlen1, fun i hi => hcol1 i (by omega), fun j hj => by omega⟩
    (by
      intro k f _ hk ⟨hlen, hcol, hrow⟩
      have hkn : k < n := by omega
      have hidx : 0 * n + k < f.length := by
        rw [hlen]; exact table_index_lt (show 0 < m by omega) hkn
      refine ⟨f.set (0 * n + k) (u32 k), vecSet_eq_ok _ hidx, by simp [hlen], ?_, ?_⟩
      · intro i hi
        by_cases hik : 0 * n + k = i * n
        · have h0 := (table_index_inj n i 0 0 k (by omega) hkn
            (by simpa using hik))
          obtain ⟨h1, h2⟩ := h0
          subst h1; subst h2
          rw [← hik, List.getElem?_set_self hidx, u32_of_lt (by omega)]
        · rw [List.getElem?_set_ne hik]; exact hcol i hi
      · intro j hj
        have hidx0 : k < f.length := by simpa using hidx
        by_cases hjk : j = k
        · subst hjk
          simp only [Nat.zero_mul, Nat.zero_add]
          rw [List.getElem?_set_self hidx0, u32_of_lt (by omega)]
        · simp only [Nat.zero_mul, Nat.zero_add]
          rw [List.getElem?_set_ne (Ne.symm hjk)]
          exact hrow j (by omega))
  have hinv2 : TableInv H R m n 1 1 f2 := by
    refine ⟨hlen2, fun i j hi hj hfilled => ?_⟩
    have hj0 : ∀ i, i < m → f2[i * n + 0]? = some (lev (H.take i) (R.take 0)) := by
      intro i hi
      rw [lev_take_zero_right H R i (by omega)]
      exact hcol2 i hi
    rcases hfilled with h | h | ⟨_, h⟩
    · have hi0 : i = 0 := by omega
      subst hi0
      rw [lev_take_zero_left H R j (by omega)]
      simpa using hrow2 j (by omega)
    · subst h; exact hj0 i hi
    · have : j = 0 := by omega
      subst this; exact hj0 i hi
  -- main loops
  obtain ⟨f3, hf3, hinv3⟩ := forLoop_inv
    (fun i f => forLoop (cellStep H R n i) (n - 1) 1 f)
    (fun i f => TableInv H R m n i 1 f) (m - 1) 1 f2 hinv2
    (by
      intro i f hi1 hi hinv
      obtain ⟨f', hf', hinv'⟩ := forLoop_inv (cellStep H R n i)
        (fun j f => TableInv H R m n i j f) (n - 1) 1 f hinv
        (by
          intro j g hj1 hj hg
          obtain ⟨a, rfl⟩ : ∃ a, i = a + 1 := ⟨i - 1, by omega⟩
          obtain ⟨b, rfl⟩ : ∃ b, j = b + 1 := ⟨j - 1, by omega⟩
          exact cellStep_spec H R m n a b g (by omega) (by omega) hH hR hmn hg)
      refine ⟨f', hf', hinv'.1, fun i' j' hi' hj' hfilled => ?_⟩
      apply hinv'.2 i' j' hi' hj'
      rcases hfilled with h | h | ⟨h, _⟩
      · rcases Nat.lt_or_ge i' i with h1 | h1
        · exact Or.inl h1
        · exact Or.inr (Or.inr ⟨by omega, by omega⟩)
      · exact Or.inr (Or.inl h)
      · omega)
  refine ⟨f3, ?_, hinv3.1, fun i j hi hj => hinv3.2 i j hi hj (Or.inl (by omega))⟩
  unfold fillTable
  rw [hf1, Outcome.bind, hf2, Outcome.bind]
  exact hf3

theorem cellStep_ok {H R : List Str} {n i j : Nat} {f f' : List Nat}
    (h : cellStep H R n i j f = Outcome.ok f') :
    f'.length = f.length ∧ i * n + j < f.length := by
  unfold cellStep at h
  obtain ⟨up, _, h⟩ := Outcome.bind_eq_ok h
  obtain ⟨left, _, h⟩ := Outcome.bind_eq_ok h
  obtain ⟨f1, hset1, h⟩ := Outcome.bind_eq_ok h
  obtain ⟨diag, _, h⟩ := Outcome.bind_eq_ok h
  obtain ⟨ht, _, h⟩ := Outcome.bind_eq_ok h
  obtain ⟨rt, _, h⟩ := Outcome.bind_eq_ok h
  obtain ⟨cur, _, h⟩ := Outcome.bind_eq_ok h
  obtain ⟨hlt1, rfl⟩ := vecSet_ok_lt hset1
  obtain ⟨_, rfl⟩ := vecSet_ok_lt h
  exact ⟨by simp, hlt1⟩

theorem oobOnly_cellStep (H R : List Str) (n i j : Nat) (f : List Nat) :
    OobOnly (cellStep H R n i j f) := by
  unfold cellStep
  refine oobOnly_bind (oobOnly_vecGet _ _) fun _ => ?_
  refine oobOnly_bind (oobOnly_vecGet _ _) fun _ => ?_
  refine oobOnly_bind (oobOnly_vecSet _ _ _) fun _ => ?_
  refine oobOnly_bind (oobOnly_vecGet _ _) fun _ => ?_
  refine oobOnly_bind (oobOnly_vecGet _ _) fun _ => ?_
  refine oobOnly_bind (oobOnly_vecGet _ _) fun _ => ?_
  refine oobOnly_bind (oobOnly_vecGet _ _) fun _ => ?_
  exact oobOnly_vecSet _ _ _

theorem oobOnly_fillTable (H R : List Str) (m n : Nat) (f : List Nat) :
    OobOnly (fillTable H R m n f) := by
  unfold fillTable
  refine oobOnly_bind (oobOnly_forLoop _ (fun _ _ => oobOnly_vecSet _ _ _) _ _ _) fun _ => ?_
  refine oobOnly_bind (oobOnly_forLoop _ (fun _ _ => oobOnly_vecSet _ _ _) _ _ _) fun _ => ?_
  exact oobOnly_forLoop _
    (fun i g => oobOnly_forLoop _ (fun j g' => oobOnly_cellStep H R n i j g') _ _ g) _ _ _

theorem oobOnly_compute (hypo ref : Str) (char_level : Bool) :
    OobOnly (compute hypo ref char_level) := by
  unfold compute
  refine oobOnly_bind (oobOnly_fillTable _ _ _ _ _) fun _ => ?_
  exact oobOnly_bind (oobOnly_vecGet _ _) fun _ => oobOnly_ok _

/-- A run of the three loops that returns leaves the table size unchanged, and the last
cell written by the main loops lies inside the table. -/
theorem fillTable_ok {H R : List Str} {m n : Nat} {f f' : List Nat}
    (h : fillTable H R m n f = Outcome.ok f') :
    f'.length = f.length ∧ (2 ≤ m → 2 ≤ n → (m - 1) * n + (n - 1) < f.length) := by
  unfold fillTable at h
  obtain ⟨f1, h1, h⟩ := Outcome.bind_eq_ok h
  obtain ⟨f2, h2, h3⟩ := Outcome.bind_eq_ok h
  have hset : ∀ (idx : Nat → Nat) (i : Nat) (s t : List Nat), s.length = f.length →
      vecSet s (idx i) (u32 i) = Outcome.ok t → t.length = f.length := by
    intro idx i s t hs hst
    obtain ⟨_, rfl⟩ := vecSet_ok_lt hst
    simpa using hs
  have hl1 := (forLoop_ok_body (fun i f => vecSet f (i * n) (u32 i))
    (fun s => s.length = f.length) (hset (fun i => i * n)) m 0 f f1 rfl h1).1
  have hl2 := (forLoop_ok_body (fun j f => vecSet f (0 * n + j) (u32 j))
    (fun s => s.length = f.length) (hset (fun j => 0 * n + j)) n 0 f1 f2 hl1 h2).1
  have hinner : ∀ (i : Nat) (s t : List Nat), s.length = f.length →
      forLoop (cellStep H R n i) (n - 1) 1 s = Outcome.ok t →
      t.length = f.length ∧ (2 ≤ n → i * n + (n - 1) < f.length) := by
    intro i s t hs hst
    obtain ⟨ht, hbody⟩ := forLoop_ok_body (cellStep H R n i) (fun s => s.length = f.length)
      (fun j s t hs hst => (cellStep_ok hst).1.trans hs) (n - 1) 1 s t hs hst
    refine ⟨ht, fun hn => ?_⟩
    obtain ⟨s1, t1, hs1, hc⟩ := hbody (n - 1) (by omega) (by omega)
    have := (cellStep_ok hc).2
    rw [hs1] at this; exact this
  obtain ⟨hl3, hbody⟩ := forLoop_ok_body
    (fun i f => forLoop (cellStep H R n i) (n - 1) 1 f) (fun s => s.length = f.length)
    (fun i s t hs hst => (hinner i s t hs hst).1) (m - 1) 1 f2 f' hl2 h3
  refine ⟨hl3, fun hm hn => ?_⟩
  obtain ⟨s1, t1, hs1, hc⟩ := hbody (m - 1) (by omega) (by omega)
  exact (hinner (m - 1) s1 t1 hs1 hc).2 hn

/-- What `compute` returns, in terms of the token sequences: with `m` and `n` the
32-bit table dimensions, the run returns exactly when both are positive and the table
size `m * n` fits 32 bits, and then it returns the distance between the first `m - 1`
hypothesis tokens and the first `n - 1` reference tokens. -/
theorem compute_eq (hypo ref : Str) (char_level : Bool) :
    compute hypo ref char_level =
      if 1 ≤ u32 ((tokenize hypo [] char_level WHITESPACE).length + 1) ∧
          1 ≤ u32 ((tokenize ref [] char_level WHITESPACE).length + 1) ∧
          u32 ((tokenize hypo [] char_level WHITESPACE).length + 1) *
            u32 ((tokenize ref [] char_level WHITESPACE).length + 1) < 2 ^ 32 then
        Outcome.ok
          (lev ((tokenize hypo [] char_level WHITESPACE).take
                (u32 ((tokenize hypo [] char_level WHITESPACE).length + 1) - 1))
              ((tokenize ref [] char_level WHITESPACE).take
                (u32 ((tokenize ref [] char_level WHITESPACE).length + 1) - 1)),
            u32 (tokenize ref [] char_level WHITESPACE).length)
      else Outcome.fail Failure.outOfBounds := by
  generalize hH : tokenize hypo [] char_level WHITESPACE = H
  generalize hR : tokenize ref [] char_level WHITESPACE = R
  generalize hm : u32 (H.length + 1) = m
  generalize hn : u32 (R.length + 1) = n
  have hmlt : m < 2 ^ 32 := by rw [← hm]; exact Nat.mod_lt _ (by norm_num)
  have hnlt : n < 2 ^ 32 := by rw [← hn]; exact Nat.mod_lt _ (by norm_num)
  have hmle : m ≤ H.length + 1 := by rw [← hm]; exact Nat.mod_le _ _
  have hnle : n ≤ R.length + 1 := by rw [← hn]; exact Nat.mod_le _ _
  have hunfold : compute hypo ref char_level =
      (fillTable H R m n (List.replicate (u32 (m * n)) 0)).bind fun f =>
        (vecGet f (u32sub (m * n) 1)).bind fun edits =>
          Outcome.ok (edits, u32 R.length) := by
    unfold compute
    simp only [hH, hR, hm, hn]
  split_ifs with hc
  · obtain ⟨h1, h2, h3⟩ := hc
    obtain ⟨f, hf, hlen, hcells⟩ := fillTable_spec H R m n h1 h2 hmle hnle h3
    rw [hunfold, u32_of_lt h3, hf, Outcome.bind]
    have hidx : u32sub (m * n) 1 = (m - 1) * n + (n - 1) := by
      have hpos : 1 ≤ m * n := Nat.mul_pos h1 h2
      have hsplit : (m - 1) * n + (n - 1) = m * n - 1 := by
        obtain ⟨a, rfl⟩ : ∃ a, m = a + 1 := ⟨m - 1, by omega⟩
        simp only [Nat.add_sub_cancel, Nat.add_mul, Nat.one_mul]
        omega
      rw [hsplit]
      unfold u32sub
      rw [u32_of_lt h3, u32_of_lt (by norm_num)]
      omega
    rw [hidx, vecGet_eq_ok (hcells (m - 1) (n - 1) (by omega) (by omega)), Outcome.bind]
  · apply eq_fail_of_oobOnly (oobOnly_compute hypo ref char_level)
    intro a ha
    rw [hunfold] at ha
    obtain ⟨f, hf, ha⟩ := Outcome.bind_eq_ok ha
    obtain ⟨e, he, _⟩ := Outcome.bind_eq_ok ha
    obtain ⟨hlen, hlast⟩ := fillTable_ok hf
    have hidx := vecGet_ok_lt he
    rw [hlen, List.length_replicate] at hidx
    rw [List.length_replicate] at hlast
    have hS : u32 (m * n) < 2 ^ 32 := Nat.mod_lt _ (by norm_num)
    by_cases hm0 : m = 0
    · subst hm0; simp [u32] at hidx
    by_cases hn0 : n = 0
    · subst hn0; simp [u32] at hidx
    have hbig : 2 ^ 32 ≤ m * n := by
      by_contra hlt
      exact hc ⟨by omega, by omega, by omega⟩
    have hm2 : 2 ≤ m := by
      by_contra h'
      have : m = 1 := by omega
      subst this; omega
    have hn2 : 2 ≤ n := by
      by_contra h'
      have : n = 1 := by omega
      subst this; omega
    have h4 := hlast hm2 hn2
    have hsplit : (m - 1) * n + (n - 1) = m * n - 1 := by
      obtain ⟨a, rfl⟩ : ∃ a, m = a + 1 := ⟨m - 1, by omega⟩
      simp only [Nat.add_sub_cancel, Nat.add_mul, Nat.one_mul]
      omega
    omega

/-! ## Tokenizer -/

theorem foldl_push_char (s : Str) (acc : List Str) :
    s.foldl (fun tokens c => tokens ++ [[c]]) acc = acc ++ s.map (fun c => [c]) := by
  induction s generalizing acc with
  | nil => simp
  | cons x xs ih => simp [ih]

theorem tokenize_char_eq (s : Str) (tokens : List Str) (delim : Char) :
    tokenize s tokens true delim = tokens ++ s.map (fun c => [c]) := by
  simp [tokenize, foldl_push_char]

theorem join_map_singleton (s : Str) : (s.map (fun c => [c])).flatten = s := by
  induction s with
  | nil => rfl
  | cons x xs ih => simp [ih]

theorem getline_no_delim (s : Str) (c : Char) (hs : s ≠ []) (hc : c ∉ s) :
    getline s c = some (s, []) := by
  induction s with
  | nil => exact absurd rfl hs
  | cons x xs ih =>
    have hx : x ≠ c := fun h => hc (by simp [h])
    have hxs : c ∉ xs := fun h => hc (by simp [h])
    cases xs with
    | nil => simp [getline, hx]
    | cons y ys => rw [getline, if_neg hx, ih (by simp) hxs]

theorem getline_delim (tok rest : Str) (c : Char) (hc : c ∉ tok) :
    getline (tok ++ c :: rest) c = some (tok, rest) := by
  induction tok with
  | nil => simp [getline]
  | cons x xs ih =>
    have hx : x ≠ c := fun h => hc (by simp [h])
    have hxs : c ∉ xs := fun h => hc (by simp [h])
    simp [getline, hx, ih hxs]

theorem tokenizeLoop_delim (fuel : Nat) (tok rest : Str) (c : Char) (acc : List Str)
    (hc : c ∉ tok) :
    tokenizeLoop (fuel + 1) (tok ++ c :: rest) c acc =
      tokenizeLoop fuel rest c (acc ++ [tok]) := by
  simp [tokenizeLoop, getline_delim tok rest c hc]

theorem tokenizeLoop_last (fuel : Nat) (tok : Str) (c : Char) (acc : List Str)
    (hne : tok ≠ []) (hc : c ∉ tok) :
    tokenizeLoop (fuel + 2) tok c acc = acc ++ [tok] := by
  simp [tokenizeLoop, getline_no_delim tok c hne hc, getline]

theorem split_at_first (s : Str) (c : Char) :
    c ∉ s ∨ ∃ tok rest, s = tok ++ c :: rest ∧ c ∉ tok := by
  induction s with
  | nil => left; simp
  | cons x xs ih =>
    by_cases hx : x = c
    · right; exact ⟨[], xs, by simp [hx], by simp⟩
    · rcases ih with h | ⟨tok, rest, h1, h2⟩
      · left; simp [h, Ne.symm hx]
      · right
        refine ⟨x :: tok, rest, by simp [h1], ?_⟩
        simp [h2, Ne.symm hx]

theorem intercalate_cons (c : Char) (t : Str) (ts : List Str) (h : ts ≠ []) :
    List.intercalate [c] (t :: ts) = t ++ c :: List.intercalate [c] ts := by
  cases ts with
  | nil => exact absurd rfl h
  | cons u us => simp [List.intercalate, List.intersperse]

/-- Word-level loop on a non-empty stream that does not end in the delimiter. -/
theorem tokenizeLoop_spec (c : Char) :
    ∀ (fuel : Nat) (s : Str) (acc : List Str), s.length < fuel → s ≠ [] →
      s.getLast? ≠ some c →
      ∃ toks, tokenizeLoop fuel s c acc = acc ++ toks ∧ toks.length = s.count c + 1 ∧
        (∀ t ∈ toks, c ∉ t) ∧ List.intercalate [c] toks = s := by
  intro fuel
  induction fuel with
  | zero => intro s acc h; omega
  | succ fuel ih =>
    intro s acc hfuel hne hlast
    rcases split_at_first s c with hc | ⟨tok, rest, hs, hc⟩
    · obtain ⟨f, rfl⟩ : ∃ f, fuel = f + 1 := by
        cases s with
        | nil => exact absurd rfl hne
        | cons x xs => exact ⟨fuel - 1, by simp at hfuel; omega⟩
      refine ⟨[s], tokenizeLoop_last f s c acc hne hc, ?_, ?_, ?_⟩
      · simp [List.count_eq_zero_of_not_mem hc]
      · simpa using hc
      · simp [List.intercalate]
    · subst hs
      have hrest : rest ≠ [] := by
        intro h; subst h; apply hlast; simp
      have hlast' : rest.getLast? ≠ some c := by
        intro h; apply hlast
        obtain ⟨ys, rfl⟩ := List.getLast?_eq_some_iff.mp h
        have : tok ++ c :: (ys ++ [c]) = (tok ++ c :: ys) ++ [c] := by simp
        rw [this, List.getLast?_concat]
      obtain ⟨toks, h1, h2, h3, h4⟩ := ih rest (acc ++ [tok])
        (by simp at hfuel; omega) hrest hlast'
      refine ⟨tok :: toks, ?_, ?_, ?_, ?_⟩
      · rw [tokenizeLoop_delim fuel tok rest c acc hc, h1]; simp
      · simp [h2, List.count_eq_zero_of_not_mem hc]
      · intro t ht
        rcases List.mem_cons.mp ht with h | h
        · subst h; exact hc
        · exact h3 t h
      · have : toks ≠ [] := by intro h; subst h; simp at h2
        rw [intercalate_cons c tok toks this, h4]

theorem tokenizeLoop_run (c : Char) (v : Str) (hv : v ≠ []) (hc : c ∉ v) :
    ∀ (j fuel : Nat) (acc : List Str), (List.replicate j c ++ v).length < fuel →
      tokenizeLoop fuel (List.replicate j c ++ v) c acc =
        acc ++ (List.replicate j [] ++ [v]) := by
  intro j
  induction j with
  | zero =>
    intro fuel acc hfuel
    obtain ⟨f, rfl⟩ : ∃ f, fuel = f + 2 := by
      cases v with
      | nil => exact absurd rfl hv
      | cons x xs => exact ⟨fuel - 2, by simp at hfuel; omega⟩
    simpa using tokenizeLoop_last f v c acc hv hc
  | succ j ih =>
    intro fuel acc hfuel
    obtain ⟨f, rfl⟩ : ∃ f, fuel = f + 1 := ⟨fuel - 1, by omega⟩
    have := tokenizeLoop_delim f [] (List.replicate j c ++ v) c acc (by simp)
    simp only [List.nil_append] at this
    rw [List.replicate_succ, List.cons_append, this,
      ih f (acc ++ [[]]) (by simp at hfuel ⊢; omega)]
    simp [List.replicate_succ]
theorem getline_length (c : Char) :
    ∀ (s tok rest : Str), getline s c = some (tok, rest) → rest.length < s.length := by
  intro s
  induction s with
  | nil => intro tok rest h; simp [getline] at h
  | cons x xs ih =>
    intro tok rest h
    unfold getline at h
    split_ifs at h with hx
    · simp only [Option.some.injEq, Prod.mk.injEq] at h
      rw [← h.2]; simp
    · cases hg : getline xs c with
      | none =>
        rw [hg] at h
        simp only [Option.some.injEq, Prod.mk.injEq] at h
        rw [← h.2]; simp
      | some p =>
        obtain ⟨t, r⟩ := p
        rw [hg] at h
        simp only [Option.some.injEq, Prod.mk.injEq] at h
        have := ih t r hg
        rw [← h.2]; simp; omega

/-- The word-level loop leaves through the failing `getline`: any amount of fuel above
the length of the unread stream gives the same tokens. -/
theorem tokenizeLoop_fuel (c : Char) :
    ∀ (f1 f2 : Nat) (s : Str) (acc : List Str), s.length < f1 → s.length < f2 →
      tokenizeLoop f1 s c acc = tokenizeLoop f2 s c acc := by
  intro f1
  induction f1 with
  | zero => intro f2 s acc h; omega
  | succ f1 ih =>
    intro f2 s acc h1 h2
    obtain ⟨g, rfl⟩ : ∃ g, f2 = g + 1 := ⟨f2 - 1, by omega⟩
    unfold tokenizeLoop
    cases hg : getline s c with
    | none => rfl
    | some p =>
      obtain ⟨t, r⟩ := p
      have := getline_length c s t r hg
      exact ih g r (acc ++ [t]) (by omega) (by omega)
/-! ## binary64 arithmetic -/

namespace Double

theorem bitLenAux_le (fuel : Nat) : ∀ (x k : Nat), x < 2 ^ k → bitLenAux fuel x ≤ k := by
  induction fuel with
  | zero => intro x k _; simp [bitLenAux]
  | succ fuel ih =>
    intro x k hx
    unfold bitLenAux
    split_ifs with h0
    · omega
    · obtain ⟨j, rfl⟩ : ∃ j, k = j + 1 := by
        cases k with
        | zero => simp at hx; exact absurd hx h0
        | succ j => exact ⟨j, rfl⟩
      have : x / 2 < 2 ^ j := by
        rw [Nat.div_lt_iff_lt_mul (by norm_num)]
        rw [pow_succ] at hx; exact hx
      have := ih (x / 2) j this
      omega

theorem bitLen_le {x k : Nat} (h : x < 2 ^ k) : bitLen x ≤ k := bitLenAux_le x x k h

theorem rne_mul_left (d y : Nat) (hd : 0 < d) : rne (d * y) d = y := by
  unfold rne
  simp only [Nat.mul_div_cancel_left y hd, Nat.mul_mod_right]
  simp [hd]

theorem mkFinite_false (mag : Nat) : mkFinite false mag = finite false mag := by
  unfold mkFinite
  split_ifs with h
  · rw [h]
  · rfl

/-- Integers below `2 ^ 53` are converted to `double` without rounding. -/
theorem ofNat_exact {n : Nat} (h : n < 2 ^ 53) : ofNat n = finite false (n * one) := by
  unfold ofNat roundQ
  simp only [Nat.div_one, Nat.one_mul]
  have hlt : n * one < 2 ^ 1127 := by
    have : (2 : Nat) ^ 1127 = 2 ^ 53 * one := by rw [one, ← pow_add]
    rw [this]
    exact Nat.mul_lt_mul_of_pos_right h (by rw [one]; positivity)
  have hs : bitLen (n * one) - 53 ≤ 1074 := by
    have := bitLen_le hlt; omega
  generalize bitLen (n * one) - 53 = s at hs
  have hsplit : n * one = 2 ^ s * (2 ^ (1074 - s) * n) := by
    rw [← Nat.mul_assoc, ← pow_add, one, Nat.mul_comm]
    congr 2; omega
  have hmag : rne (n * one) (2 ^ s) * 2 ^ s = n * one := by
    conv_lhs => rw [hsplit]
    rw [rne_mul_left _ _ (by positivity), Nat.mul_comm, ← hsplit]
  simp only [hmag]
  have : ¬ 2 ^ 2098 ≤ n * one := by
    have : (2 : Nat) ^ 1127 ≤ 2 ^ 2098 := Nat.pow_le_pow_right (by norm_num) (by norm_num)
    omega
  rw [if_neg this, mkFinite_false]

theorem add_ofNat {a b : Nat} (h : a + b < 2 ^ 53) :
    add (ofNat a) (ofNat b) = ofNat (a + b) := by
  rw [ofNat_exact (show a < 2 ^ 53 by omega), ofNat_exact (show b < 2 ^ 53 by omega)]
  simp only [add, if_true]
  rw [← Nat.add_mul]
  rfl

end Double

theorem accumulate_foldl_exact (xs : List Nat) :
    ∀ a : Nat, a + xs.sum < 2 ^ 53 →
      xs.foldl (fun acc x => Double.add acc (Double.ofNat x)) (Double.ofNat a) =
        Double.ofNat (a + xs.sum) := by
  induction xs with
  | nil => intro a _; simp
  | cons x xs ih =>
    intro a h
    simp only [List.sum_cons] at h
    simp only [List.foldl_cons, List.sum_cons]
    rw [Double.add_ofNat (by omega), ih (a + x) (by omega), Nat.add_assoc]

/-- Below `2 ^ 53` the running `double` total is the exact integer sum. -/
theorem accumulate_exact (xs : List Nat) (h : xs.sum < 2 ^ 53) :
    accumulate xs = Double.ofNat xs.sum := by
  have := accumulate_foldl_exact xs 0 (by omega)
  simpa [accumulate] using this
/-! ## Scorers -/

theorem round_to_digits_eq (d : Double) (digits : Nat) (h : digits ≤ 6) :
    round_to_digits d digits =
      Outcome.ok (Double.div (Double.round (Double.mul d (Double.ofNat (10 ^ digits))))
        (Double.ofNat (10 ^ digits))) := by
  have h7 : digits < 7 := by omega
  have hp : pow10[digits]? = some (Double.ofNat (10 ^ digits)) := by
    interval_cases digits <;> rfl
  unfold round_to_digits
  rw [if_pos h7, vecGet_eq_ok hp]
  rfl

theorem round_to_digits_ne_assertion (d : Double) :
    round_to_digits d 4 ≠ Outcome.fail Failure.assertion := by
  rw [round_to_digits_eq d 4 (by norm_num)]
  intro h; cases h

theorem Double.one_pos : 0 < Double.one := by
  unfold Double.one; exact Nat.pow_pos (by norm_num)

theorem floor_half_up (a u : Nat) (hu : 0 < u) :
    ⌊(a : ℚ) / (u : ℚ) + 1 / 2⌋ = (((2 * a + u) / (2 * u) : Nat) : ℤ) := by
  have hu0 : (u : ℚ) ≠ 0 := by exact_mod_cast hu.ne'
  have h1 : (a : ℚ) / (u : ℚ) + 1 / 2 = ((2 * a + u : Nat) : ℚ) / ((2 * u : Nat) : ℚ) := by
    push_cast
    field_simp
    ring
  rw [h1]
  exact Rat.floor_natCast_div_natCast _ _

theorem Double.toRat_mkFinite_mul_one (b : Bool) (N : Nat) :
    (Double.mkFinite b (N * Double.one)).toRat = some ((if b then -1 else 1) * (N : ℚ)) := by
  have hu := Double.one_pos
  have hu0 : (Double.one : ℚ) ≠ 0 := by exact_mod_cast hu.ne'
  unfold Double.mkFinite
  by_cases h0 : N * Double.one = 0
  · have hN0 : N = 0 := by
      rcases Nat.mul_eq_zero.mp h0 with h' | h'
      · exact h'
      · omega
    subst hN0
    simp [Double.toRat]
  · rw [if_neg h0]
    simp only [Double.toRat]
    congr 1
    push_cast
    field_simp

/-- The library function `round` is rounding to the nearest integer with an exact half
away from zero. -/
theorem Double.toRat_round (x : Double) (q : ℚ) (h : x.toRat = some q) :
    (Double.round x).toRat = some (roundHalfAway q : ℚ) := by
  cases x with
  | inf neg => cases h
  | nan => cases h
  | finite neg a =>
    simp only [Double.toRat, Option.some.injEq] at h
    have hu := Double.one_pos
    have hu0 : (0 : ℚ) < (Double.one : ℚ) := by exact_mod_cast hu
    have hfloor := floor_half_up a Double.one hu
    simp only [Double.round]
    rw [Double.toRat_mkFinite_mul_one]
    congr 1
    subst h
    generalize (2 * a + Double.one) / (2 * Double.one) = N at hfloor ⊢
    unfold roundHalfAway
    cases neg with
    | false =>
      have hq : (0 : ℚ) ≤ (a : ℚ) / (Double.one : ℚ) := by positivity
      simp only [Bool.false_eq_true, if_false, one_mul]
      rw [if_pos hq, hfloor]
      norm_cast
    | true =>
      simp only [if_true]
      by_cases ha : a = 0
      · subst ha
        have hN0 : N = 0 := by
          have h0 : ⌊((0 : Nat) : ℚ) / (Double.one : ℚ) + 1 / 2⌋ = 0 := by
            norm_num
          rw [h0] at hfloor
          exact_mod_cast hfloor.symm
        subst hN0
        norm_num
      · have hpos : (0 : ℚ) < (a : ℚ) / (Double.one : ℚ) := by
          have : (0 : ℚ) < a := by exact_mod_cast Nat.pos_of_ne_zero ha
          positivity
        have h2 : -1 * (a : ℚ) / (Double.one : ℚ) = -((a : ℚ) / (Double.one : ℚ)) := by ring
        have hq : ¬ (0 : ℚ) ≤ -1 * (a : ℚ) / (Double.one : ℚ) := by
          rw [h2]; intro h'; linarith
        rw [if_neg hq, h2, neg_neg, hfloor]
        push_cast
        ring
theorem accumulate_concat (xs : List Nat) (x : Nat) :
    accumulate (xs ++ [x]) = Double.add (accumulate xs) (Double.ofNat x) := by
  simp [accumulate]

theorem oobOnly_scoreStep (hypo ref : List Str) (char_level : Bool) (i : Nat)
    (st : ScoreState) : OobOnly (scoreStep hypo ref char_level i st) := by
  unfold scoreStep
  refine oobOnly_bind (oobOnly_vecGet _ _) fun _ => ?_
  refine oobOnly_bind (oobOnly_vecGet _ _) fun _ => ?_
  refine oobOnly_bind (oobOnly_compute _ _ _) fun _ => ?_
  refine oobOnly_bind (oobOnly_vecGet _ _) fun _ => ?_
  exact oobOnly_bind (oobOnly_vecGet _ _) fun _ => oobOnly_ok _

/-- The loop of `score` on a batch whose pairs all return: the totals are the running
`double` sums of the edit counts and of the reference lengths, and the pairs are
appended behind the zero-initialised entries. -/
theorem score_loop (hypo ref : List Str) (char_level : Bool) (stats : List (Nat × Nat))
    (hlen : hypo.length = ref.length)
    (hstats : List.zipWith (fun h r => compute h r char_level) hypo ref =
      stats.map Outcome.ok) :
    forLoop (scoreStep hypo ref char_level) hypo.length 0
        ⟨List.replicate hypo.length (0, 0), Double.ofNat 0, Double.ofNat 0⟩ =
      Outcome.ok ⟨List.replicate hypo.length (0, 0) ++ stats,
        accumulate (stats.map Prod.fst), accumulate (stats.map Prod.snd)⟩ := by
  have hslen : stats.length = hypo.length := by
    have := congrArg List.length hstats
    simp only [List.length_zipWith, List.length_map] at this
    omega
  obtain ⟨st, hst, h1, h2, h3⟩ := forLoop_inv (scoreStep hypo ref char_level)
    (fun k st => st.stats = List.replicate hypo.length (0, 0) ++ stats.take k ∧
      st.total_edits = accumulate ((stats.take k).map Prod.fst) ∧
      st.total_lengths = accumulate ((stats.take k).map Prod.snd))
    hypo.length 0 ⟨List.replicate hypo.length (0, 0), Double.ofNat 0, Double.ofNat 0⟩
    ⟨by simp, by simp [accumulate], by simp [accumulate]⟩
    (by
      intro k st _ hk ⟨hs1, hs2, hs3⟩
      have hkh : k < hypo.length := by omega
      have hkr : k < ref.length := by omega
      have hks : k < stats.length := by omega
      have hc : compute hypo[k] ref[k] char_level = Outcome.ok stats[k] := by
        have h := congrArg (fun l => l[k]?) hstats
        simp only [List.getElem?_zipWith, List.getElem?_map,
          List.getElem?_eq_getElem hkh, List.getElem?_eq_getElem hkr,
          List.getElem?_eq_getElem hks, Option.map_some', Option.some.injEq] at h
        simpa using h
      have hback : (st.stats ++ [stats[k]])[(st.stats ++ [stats[k]]).length - 1]? =
          some stats[k] := by
        simp
      refine ⟨⟨st.stats ++ [stats[k]], Double.add st.total_edits (Double.ofNat stats[k].1),
        Double.add st.total_lengths (Double.ofNat stats[k].2)⟩, ?_, ?_, ?_, ?_⟩
      · unfold scoreStep
        rw [vecGet_eq_ok (List.getElem?_eq_getElem hkh), Outcome.bind,
          vecGet_eq_ok (List.getElem?_eq_getElem hkr), Outcome.bind, hc, Outcome.bind]
        simp only []
        rw [vecGet_eq_ok hback]
        rfl
      · simp only [hs1, List.take_succ, List.getElem?_eq_getElem hks, Option.toList,
          List.append_assoc]
      · simp only [hs2, List.take_succ, List.getElem?_eq_getElem hks, Option.toList,
          List.map_append, List.map_cons, List.map_nil, accumulate_concat]
      · simp only [hs3, List.take_succ, List.getElem?_eq_getElem hks, Option.toList,
          List.map_append, List.map_cons, List.map_nil, accumulate_concat])
  rw [hst]
  simp only [Nat.zero_add] at h1 h2 h3
  rw [← hslen, List.take_length] at h1 h2 h3
  cases st
  simp only at h1 h2 h3
  rw [h1, h2, h3, hslen]

theorem score_eq (hypo ref : List Str) (char_level : Bool) (stats : List (Nat × Nat))
    (hlen : hypo.length = ref.length)
    (hstats : List.zipWith (fun h r => compute h r char_level) hypo ref =
      stats.map Outcome.ok) :
    score hypo ref char_level =
      round_to_digits
        (Double.div (Double.mul (Double.ofNat 100) (accumulate (stats.map Prod.fst)))
          (accumulate (stats.map Prod.snd))) 4 := by
  unfold score
  simp only [if_pos hlen]
  rw [score_loop hypo ref char_level stats hlen hstats]
  rfl

theorem score_assertion_iff (hypo ref : List Str) (char_level : Bool) :
    score hypo ref char_level = Outcome.fail Failure.assertion ↔
      hypo.length ≠ ref.length := by
  constructor
  · intro h hlen
    unfold score at h
    simp only [if_pos hlen] at h
    cases hl : forLoop (scoreStep hypo ref char_level) hypo.length 0
        ⟨List.replicate hypo.length (0, 0), Double.ofNat 0, Double.ofNat 0⟩ with
    | ok st =>
      rw [hl] at h
      exact round_to_digits_ne_assertion _ h
    | fail e =>
      rw [hl] at h
      have := oobOnly_forLoop _ (oobOnly_scoreStep hypo ref char_level) _ _ _ e hl
      subst this
      cases h
  · intro hlen
    unfold score
    simp only [if_neg hlen]
/-! ## Shared consequences of the characterisation of `compute` -/

/-- When the table size fits 32 bits, `compute` returns the distance between the full
token sequences and the number of reference tokens. -/
theorem compute_of_fits (hypo ref : Str) (char_level : Bool)
    (hsize : ((tokenize hypo [] char_level WHITESPACE).length + 1) *
      ((tokenize ref [] char_level WHITESPACE).length + 1) < 2 ^ 32) :
    compute hypo ref char_level =
      Outcome.ok (lev (tokenize hypo [] char_level WHITESPACE)
        (tokenize ref [] char_level WHITESPACE),
        (tokenize ref [] char_level WHITESPACE).length) := by
  rw [compute_eq]
  generalize tokenize hypo [] char_level WHITESPACE = H at hsize ⊢
  generalize tokenize ref [] char_level WHITESPACE = R at hsize ⊢
  have hH : H.length + 1 < 2 ^ 32 :=
    lt_of_le_of_lt (Nat.le_mul_of_pos_right _ (by omega)) hsize
  have hR : R.length + 1 < 2 ^ 32 :=
    lt_of_le_of_lt (Nat.le_mul_of_pos_left _ (by omega)) hsize
  rw [u32_of_lt hH, u32_of_lt hR, u32_of_lt (show R.length < 2 ^ 32 by omega)]
  rw [if_pos ⟨by omega, by omega, hsize⟩]
  simp

/-- A string of 65535 characters against itself at character level: the table would
need `2 ^ 32` cells, its 32-bit size is `0`, and the first write leaves the table. -/
theorem compute_self_overflow (s : Str) (hs : s.length = 65535) :
    compute s s true = Outcome.fail Failure.outOfBounds := by
  have hlen : (tokenize s [] true WHITESPACE).length = 65535 := by
    rw [tokenize_char_eq]; simp [hs]
  rw [compute_eq, hlen]
  have h1 : u32 (65535 + 1) = 65536 := by unfold u32; norm_num
  rw [h1]
  rw [if_neg (by norm_num)]

/-- A hypothesis of `2 ^ 32` characters against the empty reference: the 32-bit
dimension of the table wraps to `1` and `compute` returns `(0, 0)`. -/
theorem compute_wrapped_dimension (s : Str) (hs : s.length = 2 ^ 32) :
    compute s [] true = Outcome.ok (0, 0) := by
  have hlen : (tokenize s [] true WHITESPACE).length = 2 ^ 32 := by
    rw [tokenize_char_eq]; simp [hs]
  have hnil : tokenize [] [] true WHITESPACE = [] := rfl
  rw [compute_eq, hlen, hnil]
  have h1 : u32 (2 ^ 32 + 1) = 1 := by unfold u32; norm_num
  have h2 : u32 (([] : List Str).length + 1) = 1 := by unfold u32; norm_num
  rw [h1, h2, if_pos (by norm_num)]
  simp [lev_nil_left, u32]

/-- A string of `2 ^ 32` characters against itself at character level: both 32-bit
dimensions wrap to `1` and `compute` returns `(0, 0)`. -/
theorem compute_self_wrapped (s : Str) (hs : s.length = 2 ^ 32) :
    compute s s true = Outcome.ok (0, 0) := by
  have hlen : (tokenize s [] true WHITESPACE).length = 2 ^ 32 := by
    rw [tokenize_char_eq]; simp [hs]
  rw [compute_eq, hlen]
  have h1 : u32 (2 ^ 32 + 1) = 1 := by unfold u32; norm_num
  have h3 : u32 (2 ^ 32) = 0 := by unfold u32; norm_num
  rw [h1, h3, if_pos (by norm_num)]
  simp [lev_nil_left]

/-! ## Further consequences of the characterisation of `compute` -/

theorem tokenize_nil (char_level : Bool) (delim : Char) :
    tokenize [] [] char_level delim = [] := by
  cases char_level <;> rfl

/-- Whatever `compute` returns is bounded: the edit count is at most the larger token
count and fits 32 bits, the second component is the reference token count reduced
modulo `2 ^ 32`. -/
theorem compute_ok_bounds (hypo ref : Str) (char_level : Bool) (e r : Nat)
    (h : compute hypo ref char_level = Outcome.ok (e, r)) :
    e ≤ max (tokenize hypo [] char_level WHITESPACE).length
        (tokenize ref [] char_level WHITESPACE).length ∧
      e < 2 ^ 32 ∧ r = u32 (tokenize ref [] char_level WHITESPACE).length ∧ r < 2 ^ 32 := by
  rw [compute_eq] at h
  generalize tokenize hypo [] char_level WHITESPACE = H at h ⊢
  generalize tokenize ref [] char_level WHITESPACE = R at h ⊢
  split_ifs at h with hc
  simp only [Outcome.ok.injEq, Prod.mk.injEq] at h
  obtain ⟨he, hr⟩ := h
  have hm : u32 (H.length + 1) < 2 ^ 32 := Nat.mod_lt _ (by norm_num)
  have hn : u32 (R.length + 1) < 2 ^ 32 := Nat.mod_lt _ (by norm_num)
  have hmle : u32 (H.length + 1) ≤ H.length + 1 := Nat.mod_le _ _
  have hnle : u32 (R.length + 1) ≤ R.length + 1 := Nat.mod_le _ _
  have hlev := lev_le_max (H.take (u32 (H.length + 1) - 1)) (R.take (u32 (R.length + 1) - 1))
  rw [he] at hlev
  simp only [List.length_take] at hlev
  have h1 : min (u32 (H.length + 1) - 1) H.length = u32 (H.length + 1) - 1 := by
    apply min_eq_left; omega
  have h2 : min (u32 (R.length + 1) - 1) R.length = u32 (R.length + 1) - 1 := by
    apply min_eq_left; omega
  rw [h1, h2] at hlev
  have hr32 : r < 2 ^ 32 := by rw [← hr]; exact Nat.mod_lt _ (by norm_num)
  refine ⟨?_, ?_, hr.symm, hr32⟩
  · rcases le_total (u32 (H.length + 1) - 1) (u32 (R.length + 1) - 1) with hle | hle
    · rw [max_eq_right hle] at hlev
      exact le_trans hlev (le_trans (by omega) (le_max_right _ _))
    · rw [max_eq_left hle] at hlev
      exact le_trans hlev (le_trans (by omega) (le_max_left _ _))
  · rcases le_total (u32 (H.length + 1) - 1) (u32 (R.length + 1) - 1) with hle | hle
    · rw [max_eq_right hle] at hlev; omega
    · rw [max_eq_left hle] at hlev; omega

theorem lev_eq_zero_iff {α : Type} [DecidableEq α] (a b : List α) : lev a b = 0 ↔ a = b := by
  constructor
  · intro h
    have hs := editScript_lev a b
    rw [h] at hs
    cases hs
    rfl
  · intro h
    rw [h, lev_self]

/-- A one-character hypothesis against a reference of `2 ^ 32` characters: the 32-bit
reference dimension wraps to `1` and the returned reference length wraps to `0`. -/
theorem compute_wrapped_reference (x : Char) (s : Str) (hs : s.length = 2 ^ 32) :
    compute [x] s true = Outcome.ok (1, 0) := by
  have hlen : (tokenize s [] true WHITESPACE).length = 2 ^ 32 := by
    rw [tokenize_char_eq]; simp [hs]
  have hx : tokenize [x] [] true WHITESPACE = [[x]] := rfl
  rw [compute_eq, hlen, hx]
  have h1 : u32 (2 ^ 32 + 1) = 1 := by unfold u32; norm_num
  have h2 : u32 (([[x]] : List Str).length + 1) = 2 := by unfold u32; simp
  have h3 : u32 (2 ^ 32) = 0 := by unfold u32; norm_num
  rw [h1, h2, h3, if_pos (by norm_num)]
  simp [lev_nil_right]

/-- The empty hypothesis against a reference of `2 ^ 32` characters returns `(0, 0)`. -/
theorem compute_nil_wrapped (s : Str) (hs : s.length = 2 ^ 32) :
    compute [] s true = Outcome.ok (0, 0) := by
  have hlen : (tokenize s [] true WHITESPACE).length = 2 ^ 32 := by
    rw [tokenize_char_eq]; simp [hs]
  have hnil : tokenize [] [] true WHITESPACE = [] := rfl
  rw [compute_eq, hlen, hnil]
  have h1 : u32 (2 ^ 32 + 1) = 1 := by unfold u32; norm_num
  have h2 : u32 (([] : List Str).length + 1) = 1 := by unfold u32; norm_num
  have h3 : u32 (2 ^ 32) = 0 := by unfold u32; norm_num
  rw [h1, h2, h3, if_pos (by norm_num)]
  simp [lev_nil_left]
theorem Double.toRat_ofNat {n : Nat} (h : n < 2 ^ 53) : (Double.ofNat n).toRat = some (n : ℚ) := by
  rw [Double.ofNat_exact h]
  have hu0 : (Double.one : ℚ) ≠ 0 := by exact_mod_cast Double.one_pos.ne'
  simp only [Double.toRat]
  congr 1
  push_cast
  field_simp

theorem pow10_getElem? (k : Nat) (h : k ≤ 6) : pow10[k]? = some (Double.ofNat (10 ^ k)) := by
  interval_cases k <;> rfl

theorem round_to_digits_assertion_iff (d : Double) (digits : Nat) :
    round_to_digits d digits = Outcome.fail Failure.assertion ↔ 6 < digits := by
  constructor
  · intro h
    by_contra hle
    rw [round_to_digits_eq d digits (by omega)] at h
    cases h
  · intro h
    unfold round_to_digits
    rw [if_neg (by omega)]

theorem add_zero_ofNat {n : Nat} (h : n < 2 ^ 53) :
    Double.add (Double.ofNat 0) (Double.ofNat n) = Double.ofNat n := by
  have := Double.add_ofNat (a := 0) (b := n) (by omega)
  simpa using this

theorem score_single (h r : Str) (char_level : Bool) :
    score [h] [r] char_level = score_sent h r char_level := by
  cases hc : compute h r char_level with
  | fail e =>
    unfold score score_sent
    simp only [List.length_cons, List.length_nil, if_true, forLoop, scoreStep,
      vecGet, List.getElem?_cons_zero, Outcome.bind, hc]
  | ok p =>
    obtain ⟨e, n⟩ := p
    obtain ⟨_, he, _, hn⟩ := compute_ok_bounds h r char_level e n hc
    rw [score_eq [h] [r] char_level [(e, n)] rfl (by simp [hc])]
    unfold score_sent
    rw [hc]
    simp only [Outcome.bind, List.map_cons, List.map_nil, accumulate, List.foldl_cons,
      List.foldl_nil]
    rw [add_zero_ofNat (by omega), add_zero_ofNat (by omega)]
/-! ## Word-level tokens as a literal split -/

theorem splitLiteral_ne_nil (c : Char) (s : Str) : splitLiteral c s ≠ [] := by
  induction s with
  | nil => simp [splitLiteral]
  | cons x xs ih =>
    unfold splitLiteral
    split_ifs
    · simp
    · cases h : splitLiteral c xs with
      | nil => simp
      | cons seg segs => simp

theorem splitLiteral_eq_splitOn (c : Char) (s : Str) : splitLiteral c s = s.splitOn c := by
  induction s with
  | nil => rfl
  | cons x xs ih =>
    unfold splitLiteral
    rw [List.splitOn, List.splitOnP_cons]
    rw [List.splitOn] at ih
    by_cases hx : x = c
    · simp [hx, ih]
    · have hb : (x == c) = false := by simpa using hx
      rw [if_neg hx, hb, ih]
      cases h : List.splitOnP (fun y => y == c) xs with
      | nil => exact absurd h (List.splitOnP_ne_nil _ _)
      | cons seg segs => simp

theorem splitLiteral_no_delim (c : Char) (s : Str) (hc : c ∉ s) : splitLiteral c s = [s] := by
  induction s with
  | nil => rfl
  | cons x xs ih =>
    have hx : x ≠ c := fun h => hc (by simp [h])
    have hxs : c ∉ xs := fun h => hc (by simp [h])
    unfold splitLiteral
    rw [if_neg hx, ih hxs]

theorem splitLiteral_append_delim (c : Char) (tok rest : Str) (hc : c ∉ tok) :
    splitLiteral c (tok ++ c :: rest) = tok :: splitLiteral c rest := by
  induction tok with
  | nil => simp [splitLiteral]
  | cons x xs ih =>
    have hx : x ≠ c := fun h => hc (by simp [h])
    have hxs : c ∉ xs := fun h => hc (by simp [h])
    rw [List.cons_append, splitLiteral, if_neg hx, ih hxs]

theorem splitLiteral_snoc_delim (c : Char) (s : Str) :
    splitLiteral c (s ++ [c]) = splitLiteral c s ++ [[]] := by
  induction s with
  | nil => simp [splitLiteral]
  | cons x xs ih =>
    rw [List.cons_append, splitLiteral, splitLiteral, ih]
    by_cases hx : x = c
    · simp [hx]
    · rw [if_neg hx, if_neg hx]
      cases h : splitLiteral c xs with
      | nil => exact absurd h (splitLiteral_ne_nil c xs)
      | cons seg segs => simp

theorem splitLiteral_getLast_snoc (c y : Char) (s : Str) (hy : y ≠ c) :
    (splitLiteral c (s ++ [y])).getLast? ≠ some [] := by
  induction s with
  | nil => simp [splitLiteral, hy]
  | cons x xs ih =>
    rw [List.cons_append, splitLiteral]
    cases h : splitLiteral c (xs ++ [y]) with
    | nil => exact absurd h (splitLiteral_ne_nil c _)
    | cons seg segs =>
      rw [h] at ih
      by_cases hx : x = c
      · rw [if_pos hx, List.getLast?_cons_cons]; exact ih
      · rw [if_neg hx]
        cases segs with
        | nil => simp
        | cons t ts =>
          rw [List.getLast?_cons_cons]
          rw [List.getLast?_cons_cons] at ih
          exact ih

/-- The last segment of the literal split is empty exactly for the empty string and for
strings ending in the delimiter. -/
theorem splitLiteral_getLast_eq_nil_iff (c : Char) (s : Str) :
    (splitLiteral c s).getLast? = some [] ↔ s = [] ∨ s.getLast? = some c := by
  rcases List.eq_nil_or_concat s with rfl | ⟨init, y, rfl⟩
  · simp [splitLiteral]
  · rw [List.concat_eq_append]
    by_cases hy : y = c
    · subst hy
      rw [splitLiteral_snoc_delim]
      simp
    · constructor
      · intro h; exact absurd h (splitLiteral_getLast_snoc c y init hy)
      · intro h
        rcases h with h | h
        · simp at h
        · rw [List.getLast?_concat] at h
          simp only [Option.some.injEq] at h
          exact absurd h hy

theorem dropFinalEmpty_cons (t : Str) (segs : List Str) (h : segs ≠ []) :
    dropFinalEmpty (t :: segs) = t :: dropFinalEmpty segs := by
  cases segs with
  | nil => exact absurd rfl h
  | cons u us =>
    unfold dropFinalEmpty
    rw [List.getLast?_cons_cons]
    split_ifs
    · simp [List.dropLast]
    · rfl

theorem dropFinalEmpty_concat_nil (segs : List Str) : dropFinalEmpty (segs ++ [[]]) = segs := by
  unfold dropFinalEmpty
  rw [List.getLast?_concat, if_pos rfl, List.dropLast_concat]

/-- The word-level loop returns the literal split without a final empty segment. -/
theorem tokenizeLoop_eq_split (c : Char) :
    ∀ (fuel : Nat) (s : Str) (acc : List Str), s.length < fuel →
      tokenizeLoop fuel s c acc = acc ++ dropFinalEmpty (splitLiteral c s) := by
  intro fuel
  induction fuel with
  | zero => intro s acc h; omega
  | succ fuel ih =>
    intro s acc hfuel
    rcases split_at_first s c with hc | ⟨tok, rest, hs, hc⟩
    · cases s with
      | nil => simp [tokenizeLoop, getline, splitLiteral, dropFinalEmpty]
      | cons x xs =>
        obtain ⟨f, rfl⟩ : ∃ f, fuel = f + 1 := ⟨fuel - 1, by simp at hfuel; omega⟩
        rw [tokenizeLoop_last f (x :: xs) c acc (by simp) hc, splitLiteral_no_delim c _ hc]
        simp [dropFinalEmpty]
    · subst hs
      rw [tokenizeLoop_delim fuel tok rest c acc hc,
        ih rest (acc ++ [tok]) (by simp at hfuel; omega),
        splitLiteral_append_delim c tok rest hc,
        dropFinalEmpty_cons tok _ (splitLiteral_ne_nil c rest)]
      simp

theorem tokenize_word_eq_split (c : Char) (s : Str) :
    tokenize s [] false c = dropFinalEmpty (splitLiteral c s) := by
  have := tokenizeLoop_eq_split c (s.length + 1) s [] (by omega)
  simpa [tokenize] using this
/-! ## The instrumented table: every cell is written before it is read -/

theorem vecGetW_eq_ok {f : List (Option Nat)} {i v : Nat} (h : f[i]? = some (some v)) :
    vecGetW f i = Outcome.ok v := by
  simp [vecGetW, h]

theorem cellStepW_spec (H R : List Str) (m n a b : Nat) (f : List (Option Nat))
    (hi : a + 1 < m) (hj : b + 1 < n) (hH : m ≤ H.length + 1) (hR : n ≤ R.length + 1)
    (hmn : m * n < 2 ^ 32) (hinv : TableInvW H R m n (a + 1) (b + 1) f) :
    ∃ f', cellStepW H R n (a + 1) (b + 1) f = Outcome.ok f' ∧
      TableInvW H R m n (a + 1) (b + 1 + 1) f' := by
  obtain ⟨hlen, hcells⟩ := hinv
  have hup := hcells a (b + 1) (by omega) hj (Or.inl (by omega))
  have hleft := hcells (a + 1) b hi (by omega) (Or.inr (Or.inr ⟨rfl, by omega⟩))
  have hdiag := hcells a b (by omega) (by omega) (Or.inl (by omega))
  obtain ⟨h, hh⟩ : ∃ h, H[a]? = some h :=
    ⟨H[a], List.getElem?_eq_getElem (by omega)⟩
  obtain ⟨r, hr⟩ : ∃ r, R[b]? = some r :=
    ⟨R[b], List.getElem?_eq_getElem (by omega)⟩
  have hidx : (a + 1) * n + (b + 1) < f.length := by
    rw [hlen]; exact table_index_lt hi hj
  have hsum := add_le_mul_of_pos (show 1 ≤ m by omega) (show 1 ≤ n by omega)
  have hbound : ∀ i' j', i' < m → j' < n → i' + j' + 2 ≤ m + n →
      lev (H.take i') (R.take j') + 1 < 2 ^ 32 := by
    intro i' j' h1 h2 h3
    have := lev_le_max (H.take i') (R.take j')
    have hl1 : (H.take i').length ≤ i' := by simp
    have hl2 : (R.take j').length ≤ j' := by simp
    have : max (H.take i').length (R.take j').length ≤ i' + j' := by
      rw [max_le_iff]; omega
    omega
  have hne : (a + 1) * n + (b + 1) ≠ a * n + b := by
    intro h'
    have := (table_index_inj n a b (a + 1) (b + 1) (show b < n by omega) hj h').1
    omega
  set up := lev (H.take a) (R.take (b + 1)) with hupd
  set left := lev (H.take (a + 1)) (R.take b) with hleftd
  set diag := lev (H.take a) (R.take b) with hdiagd
  have hu1 : u32 (up + 1) = up + 1 := u32_of_lt (hbound a (b + 1) (by omega) hj (by omega))
  have hu2 : u32 (left + 1) = left + 1 :=
    u32_of_lt (hbound (a + 1) b hi (by omega) (by omega))
  have hu3 : u32 (diag + if h = r then 0 else 1) = diag + if h = r then 0 else 1 := by
    apply u32_of_lt
    have := hbound a b (by omega) (by omega) (by omega)
    split_ifs <;> omega
  have hval : min (min (up + 1) (left + 1)) (diag + if h = r then 0 else 1) =
      lev (H.take (a + 1)) (R.take (b + 1)) := by
    rw [take_succ_of_getElem? hh, take_succ_of_getElem? hr, lev_snoc_snoc,
      ← take_succ_of_getElem? hh, ← take_succ_of_getElem? hr, min_assoc]
  refine ⟨(f.set ((a + 1) * n + (b + 1)) (some (min (up + 1) (left + 1)))).set
      ((a + 1) * n + (b + 1)) (some (lev (H.take (a + 1)) (R.take (b + 1)))), ?_, ?_, ?_⟩
  · unfold cellStepW
    simp only [Nat.add_sub_cancel]
    rw [vecGetW_eq_ok hup, Outcome.bind, vecGetW_eq_ok hleft, Outcome.bind,
      vecSet_eq_ok _ hidx, Outcome.bind]
    have hdiag1 : (f.set ((a + 1) * n + (b + 1))
        (some (min (u32 (up + 1)) (u32 (left + 1)))))[a * n + b]? = some (some diag) := by
      rw [List.getElem?_set_ne hne]; exact hdiag
    have hcur : (f.set ((a + 1) * n + (b + 1))
        (some (min (u32 (up + 1)) (u32 (left + 1)))))[(a + 1) * n + (b + 1)]? =
        some (some (min (u32 (up + 1)) (u32 (left + 1)))) :=
      List.getElem?_set_self hidx
    rw [vecGetW_eq_ok hdiag1, Outcome.bind, vecGet_eq_ok hh, Outcome.bind,
      vecGet_eq_ok hr, Outcome.bind, vecGetW_eq_ok hcur, Outcome.bind,
      vecSet_eq_ok _ (by rw [List.length_set]; exact hidx), hu1, hu2, hu3, hval]
  · simp [hlen]
  · intro i' j' hi' hj' hfilled
    by_cases hsame : i' * n + j' = (a + 1) * n + (b + 1)
    · obtain ⟨rfl, rfl⟩ := table_index_inj n (a + 1) (b + 1) i' j' hj hj' hsame
      exact List.getElem?_set_self (by rw [List.length_set]; exact hidx)
    · rw [List.getElem?_set_ne (Ne.symm hsame), List.getElem?_set_ne (Ne.symm hsame)]
      apply hcells i' j' hi' hj'
      rcases hfilled with h1 | h1 | ⟨h1, h2⟩
      · exact Or.inl h1
      · exact Or.inr (Or.inl h1)
      · refine Or.inr (Or.inr ⟨h1, ?_⟩)
        rcases Nat.lt_or_ge j' (b + 1) with h3 | h3
        · exact h3
        · exfalso; apply hsame; rw [h1]; congr 1; omega

/-- On a table in which no cell has been written, the instrumented loops return: no
cell is read before it is written, and at the end every cell has been written and holds
the distance between the corresponding leading tokens. -/
theorem fillTableW_spec (H R : List Str) (m n : Nat) (hm : 1 ≤ m) (hn : 1 ≤ n)
    (hH : m ≤ H.length + 1) (hR : n ≤ R.length + 1) (hmn : m * n < 2 ^ 32) :
    ∃ f, fillTableW H R m n (List.replicate (m * n) none) = Outcome.ok f ∧
      f.length = m * n ∧
      ∀ i j, i < m → j < n → f[i * n + j]? = some (some (lev (H.take i) (R.take j))) := by
  have hmlt : m < 2 ^ 32 := lt_of_le_of_lt (Nat.le_mul_of_pos_right m hn) hmn
  have hnlt : n < 2 ^ 32 := lt_of_le_of_lt (Nat.le_mul_of_pos_left n hm) hmn
  obtain ⟨f1, hf1, hlen1, hcol1⟩ := forLoop_inv
    (fun i (f : List (Option Nat)) => vecSet f (i * n) (some (u32 i)))
    (fun k f => f.length = m * n ∧ ∀ i, i < k → f[i * n]? = some (some i)) m 0
    (List.replicate (m * n) none) ⟨by simp, fun i hi => by omega⟩
    (by
      intro k f _ hk ⟨hlen, hcol⟩
      have hidx : k * n < f.length := by
        rw [hlen]; simpa using table_index_lt (show k < m by omega) (show 0 < n by omega)
      refine ⟨f.set (k * n) (some (u32 k)), vecSet_eq_ok _ hidx, by simp [hlen], ?_⟩
      intro i hi
      by_cases hik : i = k
      · subst hik
        rw [List.getElem?_set_self hidx, u32_of_lt (by omega)]
      · have hne : k * n ≠ i * n := by
          intro h
          have := (table_index_inj n i 0 k 0 (by omega)
            (by omega) (by simpa using h)).1
          omega
        rw [List.getElem?_set_ne hne]
        exact hcol i (by omega))
  obtain ⟨f2, hf2, hlen2, hcol2, hrow2⟩ := forLoop_inv
    (fun j (f : List (Option Nat)) => vecSet f (0 * n + j) (some (u32 j)))
    (fun k f => f.length = m * n ∧ (∀ i, i < m → f[i * n]? = some (some i)) ∧
      ∀ j, j < k → f[j]? = some (some j)) n 0 f1
    ⟨hlen1, fun i hi => hcol1 i (by omega), fun j hj => by omega⟩
    (by
      intro k f _ hk ⟨hlen, hcol, hrow⟩
      have hkn : k < n := by omega
      have hidx : 0 * n + k < f.length := by
        rw [hlen]; exact table_index_lt (show 0 < m by omega) hkn
      refine ⟨f.set (0 * n + k) (some (u32 k)), vecSet_eq_ok _ hidx, by simp [hlen], ?_, ?_⟩
      · intro i hi
        by_cases hik : 0 * n + k = i * n
        · have h0 := (table_index_inj n i 0 0 k (by omega) hkn
            (by simpa using hik))
          obtain ⟨h1, h2⟩ := h0
          subst h1; subst h2
          rw [← hik, List.getElem?_set_self hidx, u32_of_lt (by omega)]
        · rw [List.getElem?_set_ne hik]; exact hcol i hi
      · intro j hj
        have hidx0 : k < f.length := by simpa using hidx
        by_cases hjk : j = k
        · subst hjk
          simp only [Nat.zero_mul, Nat.zero_add]
          rw [List.getElem?_set_self hidx0, u32_of_lt (by omega)]
        · simp only [Nat.zero_mul, Nat.zero_add]
          rw [List.getElem?_set_ne (Ne.symm hjk)]
          exact hrow j (by omega))
  have hinv2 : TableInvW H R m n 1 1 f2 := by
    refine ⟨hlen2, fun i j hi hj hfilled => ?_⟩
    have hj0 : ∀ i, i < m → f2[i * n + 0]? = some (some (lev (H.take i) (R.take 0))) := by
      intro i hi
      rw [lev_take_zero_right H R i (by omega)]
      exact hcol2 i hi
    rcases hfilled with h | h | ⟨_, h⟩
    · have hi0 : i = 0 := by omega
      subst hi0
      rw [lev_take_zero_left H R j (by omega)]
      simpa using hrow2 j (by omega)
    · subst h; exact hj0 i hi
    · have : j = 0 := by omega
      subst this; exact hj0 i hi
  obtain ⟨f3, hf3, hinv3⟩ := forLoop_inv
    (fun i f => forLoop (cellStepW H R n i) (n - 1) 1 f)
    (fun i f => TableInvW H R m n i 1 f) (m - 1) 1 f2 hinv2
    (by
      intro i f hi1 hi hinv
      obtain ⟨f', hf', hinv'⟩ := forLoop_inv (cellStepW H R n i)
        (fun j f => TableInvW H R m n i j f) (n - 1) 1 f hinv
        (by
          intro j g hj1 hj hg
          obtain ⟨a, rfl⟩ : ∃ a, i = a + 1 := ⟨i - 1, by omega⟩
          obtain ⟨b, rfl⟩ : ∃ b, j = b + 1 := ⟨j - 1, by omega⟩
          exact cellStepW_spec H R m n a b g (by omega) (by omega) hH hR hmn hg)
      refine ⟨f', hf', hinv'.1, fun i' j' hi' hj' hfilled => ?_⟩
      apply hinv'.2 i' j' hi' hj'
      rcases hfilled with h | h | ⟨h, _⟩
      · rcases Nat.lt_or_ge i' i with h1 | h1
        · exact Or.inl h1
        · exact Or.inr (Or.inr ⟨by omega, by omega⟩)
      · exact Or.inr (Or.inl h)
      · omega)
  refine ⟨f3, ?_, hinv3.1, fun i j hi hj => hinv3.2 i j hi hj (Or.inl (by omega))⟩
  unfold fillTableW
  rw [hf1, Outcome.bind, hf2, Outcome.bind]
  exact hf3
/-! ## Magnitude bounds for binary64 rounding -/

namespace Double

theorem lt_two_pow_bitLenAux (fuel : Nat) : ∀ x : Nat, x ≤ fuel → x < 2 ^ bitLenAux fuel x := by
  induction fuel with
  | zero => intro x hx; simp [bitLenAux]; omega
  | succ fuel ih =>
    intro x hx
    unfold bitLenAux
    split_ifs with h0
    · subst h0; simp
    · have := ih (x / 2) (by omega)
      rw [pow_succ]
      omega

theorem lt_two_pow_bitLen (x : Nat) : x < 2 ^ bitLen x := lt_two_pow_bitLenAux x x (le_refl x)

theorem two_pow_le_of_bitLenAux (fuel : Nat) :
    ∀ x : Nat, 0 < x → x ≤ fuel → 2 ^ (bitLenAux fuel x - 1) ≤ x := by
  induction fuel with
  | zero => intro x h0 hx; omega
  | succ fuel ih =>
    intro x h0 hx
    unfold bitLenAux
    rw [if_neg (by omega)]
    simp only [Nat.add_sub_cancel]
    by_cases h1 : x / 2 = 0
    · have : bitLenAux fuel (x / 2) = 0 := by
        rw [h1]; cases fuel <;> simp [bitLenAux]
      rw [this]; simpa using h0
    · have hpos : 0 < x / 2 := Nat.pos_of_ne_zero h1
      have h2 := ih (x / 2) hpos (by omega)
      have hb : 1 ≤ bitLenAux fuel (x / 2) := by
        by_contra hlt
        have h0' : bitLenAux fuel (x / 2) = 0 := by omega
        have := lt_two_pow_bitLenAux fuel (x / 2) (by omega)
        rw [h0'] at this
        omega
      have : bitLenAux fuel (x / 2) = (bitLenAux fuel (x / 2) - 1) + 1 := by omega
      rw [this, pow_succ]
      omega

theorem two_pow_le_of_bitLen {x : Nat} (h : 0 < x) : 2 ^ (bitLen x - 1) ≤ x :=
  two_pow_le_of_bitLenAux x x h (le_refl x)

theorem bitLen_eq {x k : Nat} (hlo : 2 ^ k ≤ x) (hhi : x < 2 ^ (k + 1)) : bitLen x = k + 1 := by
  apply le_antisymm (bitLen_le hhi)
  by_contra hlt
  have h1 : bitLen x ≤ k := by omega
  have h2 := lt_two_pow_bitLen x
  have h3 : 2 ^ bitLen x ≤ 2 ^ k := Nat.pow_le_pow_right (by norm_num) h1
  omega

theorem le_bitLen {x k : Nat} (hlo : 2 ^ k ≤ x) : k + 1 ≤ bitLen x := by
  by_contra hlt
  have h1 : bitLen x ≤ k := by omega
  have h2 := lt_two_pow_bitLen x
  have h3 : 2 ^ bitLen x ≤ 2 ^ k := Nat.pow_le_pow_right (by norm_num) h1
  omega

theorem div_le_rne (a b : Nat) : a / b ≤ rne a b := by
  unfold rne
  simp only []
  split_ifs <;> omega

theorem rne_le_div_succ (a b : Nat) : rne a b ≤ a / b + 1 := by
  unfold rne
  simp only []
  split_ifs <;> omega

theorem isFinite_mkFinite (neg : Bool) (mag : Nat) : (mkFinite neg mag).isFinite = true := by
  unfold mkFinite
  split_ifs <;> rfl

/-- Magnitude of the value to which `roundQ` rounds `num / den`. -/
theorem roundQ_eq (neg : Bool) (num den : Nat) :
    roundQ neg num den =
      if 2 ^ 2098 ≤ rne num (den * 2 ^ (bitLen (num / den) - 53)) *
          2 ^ (bitLen (num / den) - 53) then inf neg
      else mkFinite neg (rne num (den * 2 ^ (bitLen (num / den) - 53)) *
          2 ^ (bitLen (num / den) - 53)) := rfl

/-- The rounded magnitude is at most `2 * (num / den) + 1`. -/
theorem rounded_le (num den : Nat) :
    rne num (den * 2 ^ (bitLen (num / den) - 53)) * 2 ^ (bitLen (num / den) - 53) ≤
      2 * (num / den) + 1 := by
  set q := num / den with hq
  set s := bitLen q - 53 with hs
  have h1 := rne_le_div_succ num (den * 2 ^ s)
  have h2 : num / (den * 2 ^ s) = q / 2 ^ s := by rw [hq, Nat.div_div_eq_div_mul]
  rw [h2] at h1
  have h3 : q / 2 ^ s * 2 ^ s ≤ q := Nat.div_mul_le_self q (2 ^ s)
  have h4 : 2 ^ s ≤ q + 1 := by
    by_cases h0 : q = 0
    · have : bitLen q = 0 := by rw [h0]; rfl
      rw [hs, this]; simp
    · have h5 := two_pow_le_of_bitLen (Nat.pos_of_ne_zero h0)
      have h6 : 2 ^ s ≤ 2 ^ (bitLen q - 1) := Nat.pow_le_pow_right (by norm_num) (by omega)
      omega
  calc rne num (den * 2 ^ s) * 2 ^ s ≤ (q / 2 ^ s + 1) * 2 ^ s := Nat.mul_le_mul_right _ h1
    _ = q / 2 ^ s * 2 ^ s + 2 ^ s := by ring
    _ ≤ 2 * q + 1 := by omega

/-- A quotient far below the overflow threshold rounds to a finite value. -/
theorem roundQ_finite (neg : Bool) (num den : Nat) (h : 2 * (num / den) + 1 < 2 ^ 2098) :
    ∃ mag, roundQ neg num den = mkFinite neg mag ∧ mag ≤ 2 * (num / den) + 1 := by
  refine ⟨_, ?_, rounded_le num den⟩
  rw [roundQ_eq, if_neg]
  have := rounded_le num den
  omega

/-- A quotient of at least one unit rounds to a non-zero magnitude. -/
theorem rounded_pos (num den : Nat) (h : 1 ≤ num / den) :
    1 ≤ rne num (den * 2 ^ (bitLen (num / den) - 53)) * 2 ^ (bitLen (num / den) - 53) := by
  set q := num / den with hq
  set s := bitLen q - 53 with hs
  have h1 := div_le_rne num (den * 2 ^ s)
  have h2 : num / (den * 2 ^ s) = q / 2 ^ s := by rw [hq, Nat.div_div_eq_div_mul]
  rw [h2] at h1
  have h5 := two_pow_le_of_bitLen (show 0 < q by omega)
  have h6 : 2 ^ s ≤ 2 ^ (bitLen q - 1) := Nat.pow_le_pow_right (by norm_num) (by omega)
  have h7 : 1 ≤ q / 2 ^ s := by
    rw [Nat.le_div_iff_mul_le (by positivity)]; omega
  have h8 : 1 ≤ 2 ^ s := Nat.one_le_two_pow
  calc 1 = 1 * 1 := rfl
    _ ≤ rne num (den * 2 ^ s) * 2 ^ s := Nat.mul_le_mul (le_trans h7 h1) h8

end Double
namespace Double

theorem roundQ_one (neg : Bool) (y : Nat) :
    roundQ neg y 1 = if 2 ^ 2098 ≤ roundInt y then inf neg else mkFinite neg (roundInt y) := by
  rw [roundQ_eq]
  simp only [Nat.div_one, Nat.one_mul, roundInt]

theorem roundInt_le_two_pow {y k : Nat} (h : y < 2 ^ k) : roundInt y ≤ 2 ^ k := by
  unfold roundInt
  set s := bitLen y - 53 with hs
  have hb := bitLen_le h
  have hsk : s ≤ k := by omega
  have hsplit : 2 ^ k = 2 ^ (k - s) * 2 ^ s := by rw [← pow_add]; congr 1; omega
  have hq : y / 2 ^ s < 2 ^ (k - s) := by
    rw [Nat.div_lt_iff_lt_mul (by positivity), ← hsplit]; exact h
  have h1 := rne_le_div_succ y (2 ^ s)
  calc rne y (2 ^ s) * 2 ^ s ≤ 2 ^ (k - s) * 2 ^ s := Nat.mul_le_mul_right _ (by omega)
    _ = 2 ^ k := hsplit.symm

theorem two_pow_le_roundInt {y j : Nat} (h : 2 ^ j ≤ y) : 2 ^ j ≤ roundInt y := by
  unfold roundInt
  set s := bitLen y - 53 with hs
  have hpos : 0 < y := lt_of_lt_of_le (by positivity) h
  have hb := le_bitLen h
  have h5 := two_pow_le_of_bitLen hpos
  have hsb : s ≤ bitLen y - 1 := by omega
  have hsplit : 2 ^ (bitLen y - 1) = 2 ^ (bitLen y - 1 - s) * 2 ^ s := by
    rw [← pow_add]; congr 1; omega
  have hq : 2 ^ (bitLen y - 1 - s) ≤ y / 2 ^ s := by
    rw [Nat.le_div_iff_mul_le (by positivity), ← hsplit]; exact h5
  have h1 := div_le_rne y (2 ^ s)
  have hj : 2 ^ j ≤ 2 ^ (bitLen y - 1) := Nat.pow_le_pow_right (by norm_num) (by omega)
  calc 2 ^ j ≤ 2 ^ (bitLen y - 1) := hj
    _ = 2 ^ (bitLen y - 1 - s) * 2 ^ s := hsplit
    _ ≤ rne y (2 ^ s) * 2 ^ s := Nat.mul_le_mul_right _ (le_trans hq h1)

/-- In the binade `[2 ^ k, 2 ^ (k + 1))` the rounded value is a multiple of
the spacing `2 ^ (k - 52)`. -/
theorem roundInt_multiple {y k : Nat} (hlo : 2 ^ k ≤ y) (hhi : y < 2 ^ (k + 1)) :
    ∃ c, roundInt y = c * 2 ^ (k - 52) := by
  unfold roundInt
  rw [bitLen_eq hlo hhi]
  exact ⟨_, by congr 2⟩

/-- A small addend is absorbed by a power of two: `2 ^ k + x` rounds back to `2 ^ k`
when `x` is below half the spacing above `2 ^ k`. -/
theorem roundInt_absorb {k x : Nat} (hk : 53 ≤ k) (hx : x < 2 ^ (k - 53)) :
    roundInt (2 ^ k + x) = 2 ^ k := by
  have hhalf : 2 ^ (k - 52) = 2 * 2 ^ (k - 53) := by
    rw [← pow_succ']; congr 1; omega
  have hlo : 2 ^ k ≤ 2 ^ k + x := by omega
  have hsp : 2 ^ k = 2 ^ 52 * 2 ^ (k - 52) := by rw [← pow_add]; congr 1; omega
  have hhi : 2 ^ k + x < 2 ^ (k + 1) := by
    have h1 : 2 ^ (k - 53) ≤ 2 ^ k := Nat.pow_le_pow_right (by norm_num) (by omega)
    rw [pow_succ]; omega
  unfold roundInt
  rw [bitLen_eq hlo hhi]
  have hs : k + 1 - 53 = k - 52 := by omega
  rw [hs]
  have hxs : x < 2 ^ (k - 52) := by omega
  have hq : (2 ^ k + x) / 2 ^ (k - 52) = 2 ^ 52 := by
    rw [hsp, Nat.add_comm, Nat.add_mul_div_right _ _ (by positivity),
      Nat.div_eq_of_lt hxs, Nat.zero_add]
  have hr : (2 ^ k + x) % 2 ^ (k - 52) = x := by
    rw [hsp, Nat.add_comm, Nat.add_mul_mod_self_right, Nat.mod_eq_of_lt hxs]
  have hrne : rne (2 ^ k + x) (2 ^ (k - 52)) = 2 ^ 52 := by
    unfold rne
    simp only [hq, hr]
    rw [if_pos (by omega)]
  rw [hrne, ← hsp]

/-- One step of a running total: adding a count below `2 ^ t` to a total that is at
most `2 ^ k - 2 ^ t` or exactly `2 ^ k` gives such a total again. -/
theorem roundInt_step {k t a b : Nat} (hk : t + 53 ≤ k) (hb : b < 2 ^ t)
    (ha : a + 2 ^ t ≤ 2 ^ k ∨ a = 2 ^ k) :
    roundInt (a + b) + 2 ^ t ≤ 2 ^ k ∨ roundInt (a + b) = 2 ^ k := by
  have htk : 2 ^ t ≤ 2 ^ (k - 53) := Nat.pow_le_pow_right (by norm_num) (by omega)
  rcases ha with ha | ha
  · have hy : a + b < 2 ^ k := by omega
    obtain ⟨j, rfl⟩ : ∃ j, k = j + 1 := ⟨k - 1, by omega⟩
    by_cases hlo : 2 ^ j ≤ a + b
    · obtain ⟨c, hc⟩ := roundInt_multiple hlo hy
      have hle := roundInt_le_two_pow hy
      have hsp : 2 ^ (j + 1) = 2 ^ 53 * 2 ^ (j - 52) := by rw [← pow_add]; congr 1; omega
      have hsp2 : 2 ^ (j + 1 - 53) = 2 ^ (j - 52) := by congr 1
      rw [hsp2] at htk
      rw [hc, hsp] at hle ⊢
      have hc53 : c ≤ 2 ^ 53 := Nat.le_of_mul_le_mul_right hle (by positivity)
      rcases Nat.lt_or_ge c (2 ^ 53) with hlt | hge
      · left
        have : (c + 1) * 2 ^ (j - 52) ≤ 2 ^ 53 * 2 ^ (j - 52) :=
          Nat.mul_le_mul_right _ hlt
        rw [Nat.add_mul, Nat.one_mul] at this
        omega
      · right
        have : c = 2 ^ 53 := le_antisymm hc53 hge
        rw [this]
    · left
      have hlt : a + b < 2 ^ j := by omega
      have hle := roundInt_le_two_pow hlt
      have h2 : 2 ^ (j + 1) = 2 * 2 ^ j := by rw [pow_succ']
      have h3 : 2 ^ (j + 1 - 53) ≤ 2 ^ j := Nat.pow_le_pow_right (by norm_num) (by omega)
      omega
  · right
    rw [ha]
    exact roundInt_absorb (by omega) (by omega)

end Double
namespace Double

theorem one_eq : one = 2 ^ 1074 := rfl

theorem roundInt_zero : roundInt 0 = 0 := by
  unfold roundInt rne
  simp

/-- One addition of the running total of `score`, on magnitudes: the total stays at
most `2 ^ 100` (in units of `1.0`) once and for all. -/
theorem add_step (a b : Nat) (hb : b < 2 ^ 1106)
    (ha : a + 2 ^ 1106 ≤ 2 ^ 1174 ∨ a = 2 ^ 1174) :
    add (finite false a) (finite false b) = finite false (roundInt (a + b)) ∧
      (roundInt (a + b) + 2 ^ 1106 ≤ 2 ^ 1174 ∨ roundInt (a + b) = 2 ^ 1174) := by
  have hstep := roundInt_step (k := 1174) (t := 1106) (by norm_num) hb ha
  refine ⟨?_, hstep⟩
  simp only [add, if_true]
  rw [roundQ_one, if_neg, mkFinite_false]
  have h1 : (2 : Nat) ^ 1174 < 2 ^ 2098 := Nat.pow_lt_pow_right (by norm_num) (by norm_num)
  rcases hstep with h | h <;> omega

end Double

/-- The running total of counts below `2 ^ 32` is a finite non-negative double of
magnitude at most `2 ^ 100`; it is zero when all counts are zero and at least `1.0`
when some count is positive. -/
theorem accumulate_foldl_inv (xs : List Nat) (hx : ∀ x ∈ xs, x < 2 ^ 32) :
    ∀ a : Nat, (a + 2 ^ 1106 ≤ 2 ^ 1174 ∨ a = 2 ^ 1174) →
      ∃ a', xs.foldl (fun acc x => Double.add acc (Double.ofNat x)) (Double.finite false a) =
          Double.finite false a' ∧
        (a' + 2 ^ 1106 ≤ 2 ^ 1174 ∨ a' = 2 ^ 1174) ∧
        (Double.one ≤ a → Double.one ≤ a') ∧
        ((∃ x ∈ xs, 0 < x) → Double.one ≤ a') ∧
        (a = 0 → (∀ x ∈ xs, x = 0) → a' = 0) := by
  induction xs with
  | nil =>
    intro a ha
    exact ⟨a, rfl, ha, fun h => h, fun ⟨x, hx', _⟩ => by simp at hx', fun h _ => h⟩
  | cons x xs ih =>
    intro a ha
    have hx32 : x < 2 ^ 32 := hx x (by simp)
    have hb : x * Double.one < 2 ^ 1106 := by
      have : (2 : Nat) ^ 1106 = 2 ^ 32 * Double.one := by rw [Double.one_eq, ← pow_add]
      rw [this]
      exact Nat.mul_lt_mul_of_pos_right hx32 Double.one_pos
    obtain ⟨hadd, hinv⟩ := Double.add_step a (x * Double.one) hb ha
    obtain ⟨a', hfold, hinv', hone, hpos, hzero⟩ :=
      ih (fun y hy => hx y (by simp [hy])) (Double.roundInt (a + x * Double.one)) hinv
    have hlow : Double.one ≤ a + x * Double.one →
        Double.one ≤ Double.roundInt (a + x * Double.one) := by
      intro h
      rw [Double.one_eq] at h ⊢
      exact Double.two_pow_le_roundInt h
    refine ⟨a', ?_, hinv', ?_, ?_, ?_⟩
    · rw [List.foldl_cons, Double.ofNat_exact (by omega), hadd]
      exact hfold
    · intro h
      exact hone (hlow (by omega))
    · rintro ⟨y, hy, hy0⟩
      rcases List.mem_cons.mp hy with rfl | hy'
      · apply hone
        apply hlow
        have : Double.one ≤ y * Double.one := Nat.le_mul_of_pos_left _ hy0
        omega
      · exact hpos ⟨y, hy', hy0⟩
    · intro h0 hall
      have hx0 : x = 0 := hall x (by simp)
      apply hzero
      · rw [h0, hx0]; simpa using Double.roundInt_zero
      · intro y hy; exact hall y (by simp [hy])

theorem accumulate_inv (xs : List Nat) (hx : ∀ x ∈ xs, x < 2 ^ 32) :
    ∃ a, accumulate xs = Double.finite false a ∧ a ≤ 2 ^ 1174 ∧
      ((∃ x ∈ xs, 0 < x) → Double.one ≤ a) ∧ ((∀ x ∈ xs, x = 0) → a = 0) := by
  obtain ⟨a, h1, h2, _, h4, h5⟩ := accumulate_foldl_inv xs hx 0 (Or.inl (by norm_num))
  refine ⟨a, ?_, ?_, h4, h5 rfl⟩
  · unfold accumulate
    rw [Double.ofNat_exact (by norm_num)]
    simpa using h1
  · rcases h2 with h | h <;> omega
namespace Double

theorem mul_finite_nonneg (a b : Nat) (h : 2 * (a * b / one) + 1 < 2 ^ 2098) :
    ∃ m, mul (finite false a) (finite false b) = finite false m ∧ m ≤ 2 * (a * b / one) + 1 := by
  obtain ⟨m, hm, hle⟩ := roundQ_finite false (a * b) one h
  refine ⟨m, ?_, hle⟩
  simp only [mul, Bool.xor_false]
  rw [hm, mkFinite_false]

theorem div_finite_nonneg (a b : Nat) (hb : b ≠ 0) (h : 2 * (a * one / b) + 1 < 2 ^ 2098) :
    ∃ m, div (finite false a) (finite false b) = finite false m ∧ m ≤ 2 * (a * one / b) + 1 := by
  obtain ⟨m, hm, hle⟩ := roundQ_finite false (a * one) b h
  refine ⟨m, ?_, hle⟩
  simp only [div, Bool.xor_false, if_neg hb]
  rw [hm, mkFinite_false]

end Double

/-- The percentage of a total of magnitude at most `2 ^ 100` over a total of at least
`1.0`, rounded to four digits, is a finite double. -/
theorem ratio_finite (e l : Nat) (he : e ≤ 2 ^ 1174) (hl : Double.one ≤ l) :
    ∃ v, round_to_digits
        (Double.div (Double.mul (Double.ofNat 100) (Double.finite false e))
          (Double.finite false l)) 4 = Outcome.ok v ∧ v.isFinite = true := by
  have hone := Double.one_pos
  have hB : (2 : Nat) ^ 1174 * 2 ^ 40 < 2 ^ 2098 := by
    rw [← pow_add]; exact Nat.pow_lt_pow_right (by norm_num) (by norm_num)
  rw [round_to_digits_eq _ 4 (by norm_num), Double.ofNat_exact (show 100 < 2 ^ 53 by norm_num),
    Double.ofNat_exact (show 10 ^ 4 < 2 ^ 53 by norm_num)]
  -- the product 100 * e
  have hq1 : 100 * Double.one * e / Double.one = 100 * e := by
    rw [Nat.mul_right_comm, Nat.mul_div_cancel _ hone]
  obtain ⟨x, hx, hxle⟩ := Double.mul_finite_nonneg (100 * Double.one) e
    (by rw [hq1]; omega)
  rw [hq1] at hxle
  rw [hx]
  -- the quotient by l
  have hq2 : x * Double.one / l ≤ x :=
    le_trans (Nat.div_le_div_left hl hone) (by rw [Nat.mul_div_cancel _ hone])
  obtain ⟨y, hy, hyle⟩ := Double.div_finite_nonneg x l (by omega) (by omega)
  rw [hy]
  -- the product by 10 ^ 4
  have hq3 : y * (10 ^ 4 * Double.one) / Double.one = y * 10 ^ 4 := by
    rw [← Nat.mul_assoc, Nat.mul_div_cancel _ hone]
  obtain ⟨z, hz, hzle⟩ := Double.mul_finite_nonneg y (10 ^ 4 * Double.one)
    (by rw [hq3]; omega)
  rw [hq3] at hzle
  rw [hz]
  -- rounding to an integer
  have hround : Double.round (Double.finite false z) =
      Double.finite false ((2 * z + Double.one) / (2 * Double.one) * Double.one) := by
    simp only [Double.round]
    exact Double.mkFinite_false _
  rw [hround]
  have hr : (2 * z + Double.one) / (2 * Double.one) * Double.one ≤ 2 * z + Double.one := by
    have h1 := Nat.div_mul_le_self (2 * z + Double.one) (2 * Double.one)
    have h2 : (2 * z + Double.one) / (2 * Double.one) * Double.one ≤
        (2 * z + Double.one) / (2 * Double.one) * (2 * Double.one) :=
      Nat.mul_le_mul_left _ (by omega)
    omega
  set r := (2 * z + Double.one) / (2 * Double.one) * Double.one with hrdef
  -- the quotient by 10 ^ 4
  have hq4 : r * Double.one / (10 ^ 4 * Double.one) ≤ r := by
    rw [Nat.mul_div_mul_right _ _ hone]
    exact Nat.div_le_self _ _
  have hone_lt : Double.one < 2 ^ 1174 := by
    rw [Double.one_eq]; exact Nat.pow_lt_pow_right (by norm_num) (by norm_num)
  obtain ⟨w, hw, _⟩ := Double.div_finite_nonneg r (10 ^ 4 * Double.one)
    (by have := hone; omega) (by omega)
  exact ⟨_, congrArg Outcome.ok hw, rfl⟩

/-- The percentage of a non-negative total over the total `0.0`, rounded to four
digits, is NaN for the total `0.0` and positive infinity otherwise. -/
theorem ratio_zero (x : Double) (hx : x.NonNeg) :
    ∃ v, round_to_digits
        (Double.div (Double.mul (Double.ofNat 100) x) (Double.finite false 0)) 4 =
          Outcome.ok v ∧
      (v = Double.nan ∨ v = Double.inf false) ∧
      (x = Double.finite false 0 → v = Double.nan) ∧
      (∀ a, x = Double.finite false a → 0 < a → v = Double.inf false) := by
  have hone := Double.one_pos
  have hten : 10 ^ 4 * Double.one ≠ 0 := by have := hone; omega
  have hnan : round_to_digits Double.nan 4 = Outcome.ok Double.nan := by
    rw [round_to_digits_eq _ 4 (by norm_num)]; rfl
  have hinf : round_to_digits (Double.inf false) 4 = Outcome.ok (Double.inf false) := by
    rw [round_to_digits_eq _ 4 (by norm_num),
      Double.ofNat_exact (show 10 ^ 4 < 2 ^ 53 by norm_num)]
    simp only [Double.mul, if_neg hten, Bool.xor_false, Double.round, Double.div]
  rw [Double.ofNat_exact (show 100 < 2 ^ 53 by norm_num)]
  cases x with
  | nan => exact absurd hx (by simp [Double.NonNeg])
  | inf neg =>
    have hneg : neg = false := hx
    subst hneg
    have h100 : 100 * Double.one ≠ 0 := by have := hone; omega
    refine ⟨Double.inf false, ?_, Or.inr rfl, fun h => (by cases h), fun a h _ => (by cases h)⟩
    simp only [Double.mul, if_neg h100, Bool.xor_false, Double.div]
    exact hinf
  | finite neg a =>
    have hneg : neg = false := hx
    subst hneg
    simp only [Double.mul, Bool.xor_false]
    rw [Double.roundQ_eq]
    have hq : 100 * Double.one * a / Double.one = 100 * a := by
      rw [Nat.mul_right_comm, Nat.mul_div_cancel _ hone]
    rw [hq]
    set mag := Double.rne (100 * Double.one * a)
      (Double.one * 2 ^ (Double.bitLen (100 * a) - 53)) *
      2 ^ (Double.bitLen (100 * a) - 53) with hmag
    by_cases ha : a = 0
    · subst ha
      have hm0 : mag = 0 := by
        rw [hmag]
        simp [Double.rne, hone]
      rw [hm0]
      refine ⟨Double.nan, ?_, Or.inl rfl, fun _ => rfl, fun a h hpos => ?_⟩
      · rw [if_neg (by norm_num)]
        simp only [Double.mkFinite, if_true, Double.div]
        exact hnan
      · simp only [Double.finite.injEq, true_and] at h
        omega
    · have hpos : 1 ≤ mag := by
        have := Double.rounded_pos (100 * Double.one * a) Double.one (by rw [hq]; omega)
        rw [hq] at this
        exact this
      refine ⟨Double.inf false, ?_, Or.inr rfl, fun h => ?_, fun _ _ _ => rfl⟩
      · split_ifs with hbig
        · simp only [Double.div]
          exact hinf
        · rw [Double.mkFinite_false]
          simp only [Double.div, if_true, if_neg (show mag ≠ 0 by omega), Bool.xor_false]
          exact hinf
      · simp only [Double.finite.injEq, true_and] at h
        exact absurd h ha
/-! ## Scoring with an empty reference -/

/-- A batch whose pairs all fit 32-bit tables is scored pair by pair: every `compute`
returns, the second components are the reference token counts, and all counts fit 32
bits. -/
theorem batch_stats (char_level : Bool) :
    ∀ (hypos refs : List Str), hypos.length = refs.length →
      (∀ p ∈ hypos.zip refs,
        ((tokenize p.1 [] char_level WHITESPACE).length + 1) *
          ((tokenize p.2 [] char_level WHITESPACE).length + 1) < 2 ^ 32) →
      ∃ stats : List (Nat × Nat),
        List.zipWith (fun h r => compute h r char_level) hypos refs = stats.map Outcome.ok ∧
        stats.map Prod.snd = refs.map (fun r => (tokenize r [] char_level WHITESPACE).length) ∧
        (∀ x ∈ stats.map Prod.fst, x < 2 ^ 32) ∧ (∀ x ∈ stats.map Prod.snd, x < 2 ^ 32) := by
  intro hypos
  induction hypos with
  | nil =>
    intro refs hlen _
    cases refs with
    | nil => exact ⟨[], rfl, rfl, by simp, by simp⟩
    | cons r rs => simp at hlen
  | cons h hs ih =>
    intro refs hlen hfits
    cases refs with
    | nil => simp at hlen
    | cons r rs =>
      have hfit := hfits (h, r) (by simp)
      obtain ⟨stats, h1, h2, h3, h4⟩ := ih rs (by simpa using hlen)
        (fun p hp => hfits p (by simp [hp]))
      have hc := compute_of_fits h r char_level hfit
      obtain ⟨_, he, _, hn⟩ := compute_ok_bounds h r char_level _ _ hc
      refine ⟨(lev (tokenize h [] char_level WHITESPACE) (tokenize r [] char_level WHITESPACE),
        (tokenize r [] char_level WHITESPACE).length) :: stats, ?_, ?_, ?_, ?_⟩
      · simp only [List.zipWith_cons_cons, List.map_cons, hc, h1]
      · simp only [List.map_cons, h2]
      · intro x hx
        simp only [List.map_cons, List.mem_cons] at hx
        rcases hx with rfl | hx
        · exact he
        · exact h3 x hx
      · intro x hx
        simp only [List.map_cons, List.mem_cons] at hx
        rcases hx with rfl | hx
        · exact hn
        · exact h4 x hx

theorem nat_list_sum_pos_iff (xs : List Nat) : 0 < xs.sum ↔ ∃ x ∈ xs, 0 < x := by
  induction xs with
  | nil => simp
  | cons y ys ih =>
    simp only [List.sum_cons, List.mem_cons, exists_eq_or_imp]
    constructor
    · intro h
      by_cases hy : 0 < y
      · exact Or.inl hy
      · exact Or.inr (ih.mp (by omega))
    · rintro (h | h)
      · omega
      · have := ih.mpr h; omega

/-- What `score_sent` returns on a pair that fits a 32-bit table: NaN for an empty
reference and no edits, positive infinity for an empty reference and some edits, and
a finite value exactly for a non-empty reference. -/
theorem score_sent_of_fits (hypo ref : Str) (char_level : Bool)
    (hfit : ((tokenize hypo [] char_level WHITESPACE).length + 1) *
      ((tokenize ref [] char_level WHITESPACE).length + 1) < 2 ^ 32) :
    ∃ e v, compute hypo ref char_level =
          Outcome.ok (e, (tokenize ref [] char_level WHITESPACE).length) ∧
        score_sent hypo ref char_level = Outcome.ok v ∧
        ((tokenize ref [] char_level WHITESPACE).length = 0 → e = 0 → v = Double.nan) ∧
        ((tokenize ref [] char_level WHITESPACE).length = 0 → 0 < e →
          v = Double.inf false) ∧
        (v.isFinite = true ↔ 0 < (tokenize ref [] char_level WHITESPACE).length) := by
  have hc := compute_of_fits hypo ref char_level hfit
  obtain ⟨_, he, _, hn⟩ := compute_ok_bounds hypo ref char_level _ _ hc
  generalize lev (tokenize hypo [] char_level WHITESPACE)
    (tokenize ref [] char_level WHITESPACE) = e at hc he
  generalize (tokenize ref [] char_level WHITESPACE).length = n at hc hn
  have hs : score_sent hypo ref char_level =
      round_to_digits (Double.div (Double.mul (Double.ofNat 100)
        (Double.finite false (e * Double.one))) (Double.finite false (n * Double.one))) 4 := by
    unfold score_sent
    rw [hc]
    simp only [Outcome.bind]
    rw [Double.ofNat_exact (show e < 2 ^ 53 by omega),
      Double.ofNat_exact (show n < 2 ^ 53 by omega)]
  have hone := Double.one_pos
  by_cases hn0 : n = 0
  · subst hn0
    obtain ⟨v, hv, hor, hnan, hinf⟩ := ratio_zero (Double.finite false (e * Double.one)) rfl
    rw [Nat.zero_mul] at hs
    refine ⟨e, v, hc, by rw [hs, hv], fun _ he0 => ?_, fun _ hpos => ?_, ?_⟩
    · apply hnan; rw [he0, Nat.zero_mul]
    · exact hinf _ rfl (Nat.mul_pos hpos hone)
    · rcases hor with rfl | rfl <;> simp [Double.isFinite]
  · have hle : e * Double.one ≤ 2 ^ 1174 := by
      have h1 : (2 : Nat) ^ 1106 = 2 ^ 32 * Double.one := by rw [Double.one_eq, ← pow_add]
      have h2 : e * Double.one ≤ 2 ^ 32 * Double.one := Nat.mul_le_mul_right _ (by omega)
      have h3 : (2 : Nat) ^ 1106 ≤ 2 ^ 1174 := Nat.pow_le_pow_right (by norm_num) (by norm_num)
      omega
    obtain ⟨v, hv, hfin⟩ := ratio_finite (e * Double.one) (n * Double.one) hle
      (Nat.le_mul_of_pos_left _ (Nat.pos_of_ne_zero hn0))
    refine ⟨e, v, hc, by rw [hs, hv], fun h => absurd h hn0, fun h => absurd h hn0, ?_⟩
    simp [hfin, Nat.pos_of_ne_zero hn0]

/-- What `score` returns on a batch of equally many hypotheses and references whose
pairs all fit 32-bit tables: NaN or positive infinity when the references have no
tokens in total, a finite value otherwise. -/
theorem score_of_fits (hypos refs : List Str) (char_level : Bool)
    (hlen : hypos.length = refs.length)
    (hfits : ∀ p ∈ hypos.zip refs,
      ((tokenize p.1 [] char_level WHITESPACE).length + 1) *
        ((tokenize p.2 [] char_level WHITESPACE).length + 1) < 2 ^ 32) :
    ∃ v, score hypos refs char_level = Outcome.ok v ∧
      ((refs.map (fun r => (tokenize r [] char_level WHITESPACE).length)).sum = 0 →
        v = Double.nan ∨ v = Double.inf false) ∧
      (v.isFinite = true ↔
        0 < (refs.map (fun r => (tokenize r [] char_level WHITESPACE).length)).sum) := by
  obtain ⟨stats, hstats, hsnd, hb1, hb2⟩ := batch_stats char_level hypos refs hlen hfits
  rw [score_eq hypos refs char_level stats hlen hstats]
  rw [← hsnd]
  obtain ⟨ae, hE, hEle, _, _⟩ := accumulate_inv (stats.map Prod.fst) hb1
  obtain ⟨al, hL, _, hLpos, hLzero⟩ := accumulate_inv (stats.map Prod.snd) hb2
  rw [hE, hL]
  by_cases hsum : 0 < (stats.map Prod.snd).sum
  · obtain ⟨v, hv, hfin⟩ := ratio_finite ae al hEle
      (hLpos ((nat_list_sum_pos_iff _).mp hsum))
    refine ⟨v, hv, fun h0 => by omega, ?_⟩
    simp [hfin, hsum]
  · have hall : ∀ x ∈ stats.map Prod.snd, x = 0 := by
      intro x hx
      by_contra hne
      exact hsum ((nat_list_sum_pos_iff _).mpr ⟨x, hx, Nat.pos_of_ne_zero hne⟩)
    rw [hLzero hall]
    obtain ⟨v, hv, hor, _, _⟩ := ratio_zero (Double.finite false ae) rfl
    refine ⟨v, hv, fun _ => hor, ?_⟩
    rcases hor with rfl | rfl <;> simp [Double.isFinite, hsum]

/-- When neither 32-bit token count wraps, whatever `compute` returns is the distance
between the full token sequences together with the number of reference tokens. -/
theorem compute_ok_no_wrap (hypo ref : Str) (char_level : Bool) (e r : Nat)
    (hm : (tokenize hypo [] char_level WHITESPACE).length + 1 < 2 ^ 32)
    (hn : (tokenize ref [] char_level WHITESPACE).length + 1 < 2 ^ 32)
    (h : compute hypo ref char_level = Outcome.ok (e, r)) :
    e = lev (tokenize hypo [] char_level WHITESPACE) (tokenize ref [] char_level WHITESPACE) ∧
      r = (tokenize ref [] char_level WHITESPACE).length := by
  rw [compute_eq] at h
  generalize tokenize hypo [] char_level WHITESPACE = H at h hm ⊢
  generalize tokenize ref [] char_level WHITESPACE = R at h hn ⊢
  rw [u32_of_lt hm, u32_of_lt hn, u32_of_lt (show R.length < 2 ^ 32 by omega)] at h
  split_ifs at h with hc
  simp only [Nat.add_sub_cancel, List.take_length, Outcome.ok.injEq, Prod.mk.injEq] at h
  exact ⟨h.1.symm, h.2.symm⟩

/-- Where the table size is below `2 ^ 32`, a string against itself has edit count `0`
and its own token count as reference length. -/
theorem compute_self_of_fits (s : Str) (char_level : Bool)
    (hsize : ((tokenize s [] char_level WHITESPACE).length + 1) *
      ((tokenize s [] char_level WHITESPACE).length + 1) < 2 ^ 32) :
    compute s s char_level =
      Outcome.ok (0, (tokenize s [] char_level WHITESPACE).length) := by
  rw [compute_of_fits s s char_level hsize, lev_self]
/-! ## The claims -/

/-- C1: when the table size `(|H| + 1) * (|R| + 1)` is below `2 ^ 32`, `compute` returns
a pair whose first component is the Levenshtein distance between the token sequences
`H` of the hypothesis and `R` of the reference: some script of that many single-token
insertions, deletions and substitutions turns `H` into `R`, and no script with fewer
edits does. -/
theorem compute_fst_is_edit_distance (hypo ref : Str) (char_level : Bool)
    (hsize : ((tokenize hypo [] char_level WHITESPACE).length + 1) *
      ((tokenize ref [] char_level WHITESPACE).length + 1) < 2 ^ 32) :
    ∃ e r, compute hypo ref char_level = Outcome.ok (e, r) ∧
      EditScript e (tokenize hypo [] char_level WHITESPACE)
        (tokenize ref [] char_level WHITESPACE) ∧
      ∀ k, EditScript k (tokenize hypo [] char_level WHITESPACE)
        (tokenize ref [] char_level WHITESPACE) → e ≤ k :=
  ⟨_, _, compute_of_fits hypo ref char_level hsize, editScript_lev _ _,
    fun _ hk => lev_le_of_editScript hk⟩

/-- Witness for C1: `kitten` against `sitting` at character level. -/
theorem compute_fst_is_edit_distance_witness :
    ((tokenize ['k', 'i', 't', 't', 'e', 'n'] [] true WHITESPACE).length + 1) *
        ((tokenize ['s', 'i', 't', 't', 'i', 'n', 'g'] [] true WHITESPACE).length + 1)
        < 2 ^ 32 ∧
      ∃ e r, compute ['k', 'i', 't', 't', 'e', 'n'] ['s', 'i', 't', 't', 'i', 'n', 'g'] true =
          Outcome.ok (e, r) ∧
        EditScript e (tokenize ['k', 'i', 't', 't', 'e', 'n'] [] true WHITESPACE)
          (tokenize ['s', 'i', 't', 't', 'i', 'n', 'g'] [] true WHITESPACE) ∧
        ∀ k, EditScript k (tokenize ['k', 'i', 't', 't', 'e', 'n'] [] true WHITESPACE)
          (tokenize ['s', 'i', 't', 't', 'i', 'n', 'g'] [] true WHITESPACE) → e ≤ k :=
  ⟨by decide, compute_fst_is_edit_distance _ _ true (by decide)⟩

/-- C2, the code at a failing input: for the string `s` of 65535 letters `a` at
character level the claim asks for `compute(s, s) = (0, 65535)`, but both table
dimensions are `65536`, their 32-bit product is `0`, and `compute` stops on its first
write, outside the empty table: no pair is returned. -/
theorem compute_self_table_overflow :
    (tokenize (List.replicate 65535 'a') [] true WHITESPACE).length = 65535 ∧
      compute (List.replicate 65535 'a') (List.replicate 65535 'a') true =
        Outcome.fail Failure.outOfBounds ∧
      compute (List.replicate 65535 'a') (List.replicate 65535 'a') true ≠
        Outcome.ok (0, (tokenize (List.replicate 65535 'a') [] true WHITESPACE).length) := by
  have h := compute_self_overflow (List.replicate 65535 'a') (List.length_replicate _ _)
  refine ⟨?_, h, ?_⟩
  · rw [tokenize_char_eq, List.nil_append, List.length_map, List.length_replicate]
  · rw [h]; intro h'; cases h'

/-- C3: swapping hypothesis and reference does not change the edit count: for all
strings the two runs either both return, with equal first components, or both stop
with the same failure. -/
theorem compute_edit_count_symm (s1 s2 : Str) (cl : Bool) :
    (compute s1 s2 cl).map Prod.fst = (compute s2 s1 cl).map Prod.fst := by
  rw [compute_eq s1 s2 cl, compute_eq s2 s1 cl]
  generalize tokenize s1 [] cl WHITESPACE = A
  generalize tokenize s2 [] cl WHITESPACE = B
  by_cases h : 1 ≤ u32 (A.length + 1) ∧ 1 ≤ u32 (B.length + 1) ∧
      u32 (A.length + 1) * u32 (B.length + 1) < 2 ^ 32
  · have h' : 1 ≤ u32 (B.length + 1) ∧ 1 ≤ u32 (A.length + 1) ∧
        u32 (B.length + 1) * u32 (A.length + 1) < 2 ^ 32 :=
      ⟨h.2.1, h.1, by rw [Nat.mul_comm]; exact h.2.2⟩
    rw [if_pos h, if_pos h']
    simp only [Outcome.map]
    rw [lev_symm]
  · have h' : ¬ (1 ≤ u32 (B.length + 1) ∧ 1 ≤ u32 (A.length + 1) ∧
        u32 (B.length + 1) * u32 (A.length + 1) < 2 ^ 32) := by
      intro h'
      exact h ⟨h'.2.1, h'.1, by rw [Nat.mul_comm]; exact h'.2.2⟩
    rw [if_neg h, if_neg h']

/-- C4, as stated, fails: for a hypothesis of `2 ^ 32` letters `a` and the empty
reference at character level, `compute` returns the edit count `0`, which is below the
difference `2 ^ 32` of the two token counts. -/
theorem compute_bounds_counterexample :
    compute (List.replicate (2 ^ 32) 'a') [] true = Outcome.ok (0, 0) ∧
      (tokenize (List.replicate (2 ^ 32) 'a') [] true WHITESPACE).length = 2 ^ 32 ∧
      (tokenize [] [] true WHITESPACE).length = 0 ∧
      ¬ ((tokenize (List.replicate (2 ^ 32) 'a') [] true WHITESPACE).length -
          (tokenize [] [] true WHITESPACE).length ≤ 0) := by
  have hlen : (tokenize (List.replicate (2 ^ 32) 'a') [] true WHITESPACE).length = 2 ^ 32 := by
    rw [tokenize_char_eq, List.nil_append, List.length_map, List.length_replicate]
  have hnil : (tokenize [] [] true WHITESPACE).length = 0 := rfl
  refine ⟨compute_wrapped_dimension _ (List.length_replicate _ _), hlen, hnil, ?_⟩
  rw [hlen, hnil]
  norm_num

/-- C4, amended: for every pair of strings with `m` hypothesis tokens and `n`
reference tokens such that `m + 1 < 2 ^ 32` and `n + 1 < 2 ^ 32`, the edit count `e`
returned by `compute` satisfies `|m - n| ≤ e ≤ max m n`; a pair is returned whenever
the table size is below `2 ^ 32`. -/
theorem compute_edit_count_bounds (hypo ref : Str) (char_level : Bool)
    (hm : (tokenize hypo [] char_level WHITESPACE).length + 1 < 2 ^ 32)
    (hn : (tokenize ref [] char_level WHITESPACE).length + 1 < 2 ^ 32) :
    (∀ e r, compute hypo ref char_level = Outcome.ok (e, r) →
        (tokenize hypo [] char_level WHITESPACE).length -
            (tokenize ref [] char_level WHITESPACE).length ≤ e ∧
        (tokenize ref [] char_level WHITESPACE).length -
            (tokenize hypo [] char_level WHITESPACE).length ≤ e ∧
        e ≤ max (tokenize hypo [] char_level WHITESPACE).length
          (tokenize ref [] char_level WHITESPACE).length) ∧
      (((tokenize hypo [] char_level WHITESPACE).length + 1) *
          ((tokenize ref [] char_level WHITESPACE).length + 1) < 2 ^ 32 →
        ∃ e r, compute hypo ref char_level = Outcome.ok (e, r)) := by
  refine ⟨fun e r h => ?_, fun hsize => ⟨_, _, compute_of_fits hypo ref char_level hsize⟩⟩
  obtain ⟨he, _⟩ := compute_ok_no_wrap hypo ref char_level e r hm hn h
  subst he
  refine ⟨?_, ?_, lev_le_max _ _⟩
  · have := length_le_lev_add (tokenize hypo [] char_level WHITESPACE)
      (tokenize ref [] char_level WHITESPACE)
    omega
  · have := length_le_lev_add (tokenize ref [] char_level WHITESPACE)
      (tokenize hypo [] char_level WHITESPACE)
    rw [lev_symm] at this
    omega

/-- Witness for the amended C4: `a b c` against `d`, at word level, returns the edit
count 3, between `|3 - 1|` and `max 3 1`. -/
theorem compute_edit_count_bounds_witness :
    (tokenize ['a', ' ', 'b', ' ', 'c'] [] false WHITESPACE).length + 1 < 2 ^ 32 ∧
      (tokenize ['d'] [] false WHITESPACE).length + 1 < 2 ^ 32 ∧
      compute ['a', ' ', 'b', ' ', 'c'] ['d'] false = Outcome.ok (3, 1) ∧
      ((tokenize ['a', ' ', 'b', ' ', 'c'] [] false WHITESPACE).length -
            (tokenize ['d'] [] false WHITESPACE).length ≤ 3 ∧
        (tokenize ['d'] [] false WHITESPACE).length -
            (tokenize ['a', ' ', 'b', ' ', 'c'] [] false WHITESPACE).length ≤ 3 ∧
        3 ≤ max (tokenize ['a', ' ', 'b', ' ', 'c'] [] false WHITESPACE).length
          (tokenize ['d'] [] false WHITESPACE).length) :=
  ⟨by decide, by decide, by decide,
    (compute_edit_count_bounds ['a', ' ', 'b', ' ', 'c'] ['d'] false (by decide)
      (by decide)).1 3 1 (by decide)⟩

/-- C5: batch scoring is corpus-level.  On two equally long batches whose pairs
`compute` scores as `stats`, `score` returns `round_to_digits (100 * E / L, 4)` where
`E` and `L` are the totals of the edit counts and of the reference lengths over all
pairs, accumulated in `double`; these totals are the exact integer sums whenever the
sums are below `2 ^ 53`. -/
theorem score_corpus_level (hypo ref : List Str) (char_level : Bool)
    (stats : List (Nat × Nat)) (hlen : hypo.length = ref.length)
    (hstats : List.zipWith (fun h r => compute h r char_level) hypo ref =
      stats.map Outcome.ok) :
    score hypo ref char_level =
        round_to_digits
          (Double.div (Double.mul (Double.ofNat 100) (accumulate (stats.map Prod.fst)))
            (accumulate (stats.map Prod.snd))) 4 ∧
      ((stats.map Prod.fst).sum < 2 ^ 53 →
        accumulate (stats.map Prod.fst) = Double.ofNat (stats.map Prod.fst).sum) ∧
      ((stats.map Prod.snd).sum < 2 ^ 53 →
        accumulate (stats.map Prod.snd) = Double.ofNat (stats.map Prod.snd).sum) :=
  ⟨score_eq hypo ref char_level stats hlen hstats, accumulate_exact _, accumulate_exact _⟩

/-- Witness for C5: the batch `["a b", "c"]` against `["a b", "d"]` at word level has
one edit over three reference tokens and scores `33.3333`, whereas the two sentence
scores are `0` and `100`, whose mean is `50`. -/
theorem score_corpus_level_witness :
    [['a', ' ', 'b'], ['c']].length = [['a', ' ', 'b'], ['d']].length ∧
      List.zipWith (fun h r => compute h r false) [['a', ' ', 'b'], ['c']]
          [['a', ' ', 'b'], ['d']] = [(0, 2), (1, 1)].map Outcome.ok ∧
      score [['a', ' ', 'b'], ['c']] [['a', ' ', 'b'], ['d']] false =
        round_to_digits
          (Double.div (Double.mul (Double.ofNat 100)
            (accumulate ([(0, 2), (1, 1)].map Prod.fst)))
            (accumulate ([(0, 2), (1, 1)].map Prod.snd))) 4 ∧
      accumulate ([(0, 2), (1, 1)].map Prod.fst) = Double.ofNat 1 ∧
      accumulate ([(0, 2), (1, 1)].map Prod.snd) = Double.ofNat 3 ∧
      score [['a', ' ', 'b'], ['c']] [['a', ' ', 'b'], ['d']] false =
        Outcome.ok (Double.ofDecimal 333333 10000) ∧
      score_sent ['a', ' ', 'b'] ['a', ' ', 'b'] false = Outcome.ok (Double.ofNat 0) ∧
      score_sent ['c'] ['d'] false = Outcome.ok (Double.ofNat 100) ∧
      Double.div (Double.add (Double.ofNat 0) (Double.ofNat 100)) (Double.ofNat 2) =
        Double.ofNat 50 ∧
      Double.ofDecimal 333333 10000 ≠ Double.ofNat 50 :=
  ⟨by decide, by decide,
    (score_corpus_level [['a', ' ', 'b'], ['c']] [['a', ' ', 'b'], ['d']] false
      [(0, 2), (1, 1)] (by decide) (by decide)).1,
    by decide, by decide, by decide, by decide, by decide, by decide, by decide⟩

/-- C6: whenever `compute` returns `(e, r)` for a pair, `score_sent` on that pair is
`round_to_digits (100 * e / r, 4)`, in `double` arithmetic, and this is the value
`round (100 * e / r * 10000) / 10000`. -/
theorem score_sent_eq (hypo ref : Str) (char_level : Bool) (e r : Nat)
    (h : compute hypo ref char_level = Outcome.ok (e, r)) :
    score_sent hypo ref char_level =
        round_to_digits
          (Double.div (Double.mul (Double.ofNat 100) (Double.ofNat e)) (Double.ofNat r)) 4 ∧
      score_sent hypo ref char_level =
        Outcome.ok (Double.div (Double.round (Double.mul
          (Double.div (Double.mul (Double.ofNat 100) (Double.ofNat e)) (Double.ofNat r))
          (Double.ofNat (10 ^ 4)))) (Double.ofNat (10 ^ 4))) := by
  have h1 : score_sent hypo ref char_level =
      round_to_digits
        (Double.div (Double.mul (Double.ofNat 100) (Double.ofNat e)) (Double.ofNat r)) 4 := by
    unfold score_sent
    rw [h]
    rfl
  exact ⟨h1, by rw [h1, round_to_digits_eq _ 4 (by norm_num)]⟩

/-- Witness for C6: `a b c` against `a b d` at word level and `abc` against `abd` at
character level both have one edit over three reference tokens and score `33.3333`. -/
theorem score_sent_eq_witness :
    (compute ['a', ' ', 'b', ' ', 'c'] ['a', ' ', 'b', ' ', 'd'] false = Outcome.ok (1, 3) ∧
      score_sent ['a', ' ', 'b', ' ', 'c'] ['a', ' ', 'b', ' ', 'd'] false =
        round_to_digits
          (Double.div (Double.mul (Double.ofNat 100) (Double.ofNat 1)) (Double.ofNat 3)) 4 ∧
      score_sent ['a', ' ', 'b', ' ', 'c'] ['a', ' ', 'b', ' ', 'd'] false =
        Outcome.ok (Double.ofDecimal 333333 10000)) ∧
    (compute ['a', 'b', 'c'] ['a', 'b', 'd'] true = Outcome.ok (1, 3) ∧
      score_sent ['a', 'b', 'c'] ['a', 'b', 'd'] true =
        round_to_digits
          (Double.div (Double.mul (Double.ofNat 100) (Double.ofNat 1)) (Double.ofNat 3)) 4 ∧
      score_sent ['a', 'b', 'c'] ['a', 'b', 'd'] true =
        Outcome.ok (Double.ofDecimal 333333 10000)) :=
  ⟨⟨by decide,
      (score_sent_eq ['a', ' ', 'b', ' ', 'c'] ['a', ' ', 'b', ' ', 'd'] false 1 3
        (by decide)).1, by decide⟩,
    ⟨by decide, (score_sent_eq ['a', 'b', 'c'] ['a', 'b', 'd'] true 1 3 (by decide)).1,
      by decide⟩⟩

/-- C7: `score` stops on its assertion exactly when the two batches have different
lengths; the failed run carries no value, and with equal lengths the assertion does
not fire. -/
theorem score_assertion_iff_length_mismatch (hypo ref : List Str) (char_level : Bool) :
    score hypo ref char_level = Outcome.fail Failure.assertion ↔
      hypo.length ≠ ref.length :=
  score_assertion_iff hypo ref char_level

/-- C8: for `digits` from 0 to 6, `round_to_digits (d, digits)` returns
`R (d * 10 ^ digits) / 10 ^ digits` with the product and the quotient taken in `double`
arithmetic, the multiplier being exactly `10 ^ digits`, and `R` the rounding to the
nearest integer with an exact half away from zero (infinities and NaN are left
unchanged). -/
theorem round_to_digits_spec (d : Double) (digits : Nat) (h : digits ≤ 6) :
    round_to_digits d digits =
        Outcome.ok (Double.div (Double.round (Double.mul d (Double.ofNat (10 ^ digits))))
          (Double.ofNat (10 ^ digits))) ∧
      (Double.ofNat (10 ^ digits)).toRat = some ((10 : ℚ) ^ digits) ∧
      (∀ x q, x.toRat = some q → (Double.round x).toRat = some (roundHalfAway q : ℚ)) ∧
      (∀ b, Double.round (Double.inf b) = Double.inf b) ∧
      Double.round Double.nan = Double.nan := by
  refine ⟨round_to_digits_eq d digits h, ?_, Double.toRat_round, fun _ => rfl, rfl⟩
  have hlt : 10 ^ digits < 2 ^ 53 := by
    have : 10 ^ digits ≤ 10 ^ 6 := Nat.pow_le_pow_right (by norm_num) h
    exact lt_of_le_of_lt this (by norm_num)
  rw [Double.ofNat_exact hlt]
  have hu0 : (Double.one : ℚ) ≠ 0 := by exact_mod_cast Double.one_pos.ne'
  simp only [Double.toRat]
  congr 1
  push_cast
  field_simp

/-- Witness for C8: `round_to_digits (1.23455, 4)` is `1.2346`. -/
theorem round_to_digits_spec_witness :
    4 ≤ 6 ∧
      round_to_digits (Double.ofDecimal 123455 100000) 4 =
        Outcome.ok (Double.div (Double.round (Double.mul (Double.ofDecimal 123455 100000)
          (Double.ofNat (10 ^ 4)))) (Double.ofNat (10 ^ 4))) ∧
      round_to_digits (Double.ofDecimal 123455 100000) 4 =
        Outcome.ok (Double.ofDecimal 12346 10000) :=
  ⟨by decide, (round_to_digits_spec (Double.ofDecimal 123455 100000) 4 (by decide)).1,
    by decide⟩

/-- C9: at character level `tokenize` appends one token per character of `s`, in order,
each the one-character string of that character: as many tokens as characters, token
`i` made of character `i`, and the tokens concatenate to `s`. -/
theorem tokenize_char_level (s : Str) (tokens : List Str) (delim : Char) :
    tokenize s tokens true delim = tokens ++ s.map (fun c => [c]) ∧
      (s.map (fun c => [c])).length = s.length ∧
      (∀ i : Nat, (s.map (fun c => [c]))[i]? = s[i]?.map (fun c => [c])) ∧
      (s.map (fun c => [c])).flatten = s :=
  ⟨tokenize_char_eq s tokens delim, List.length_map _ _, fun i => List.getElem?_map _ _ i,
    join_map_singleton s⟩

/-- C10: word-level tokenization is a literal split.  For a delimiter `c` and a
non-empty string `s` that does not end in `c`, the tokens number one more than the
occurrences of `c` in `s`, none contains `c`, and joining them with `c` gives `s` back;
in particular `k + 1` consecutive delimiters between two words give `k` empty tokens
between them. -/
theorem tokenize_word_level (c : Char) (s : Str) (hne : s ≠ [])
    (hend : s.getLast? ≠ some c) :
    (tokenize s [] false c).length = s.count c + 1 ∧
      (∀ t ∈ tokenize s [] false c, c ∉ t) ∧
      List.intercalate [c] (tokenize s [] false c) = s ∧
      (∀ (u v : Str) (k : Nat), c ∉ u → c ∉ v → v ≠ [] →
        tokenize (u ++ List.replicate (k + 1) c ++ v) [] false c =
          u :: (List.replicate k [] ++ [v])) := by
  obtain ⟨toks, h1, h2, h3, h4⟩ :=
    tokenizeLoop_spec c (s.length + 1) s [] (by omega) hne hend
  have ht : tokenize s [] false c = toks := by simpa [tokenize] using h1
  refine ⟨by rw [ht]; exact h2, by rw [ht]; exact h3, by rw [ht]; exact h4, ?_⟩
  intro u v k hu hv hvne
  have hsplit : u ++ List.replicate (k + 1) c ++ v = u ++ c :: (List.replicate k c ++ v) := by
    simp [List.replicate_succ]
  have hlen : (u ++ c :: (List.replicate k c ++ v)).length + 1 =
      ((List.replicate k c ++ v).length + 1 + u.length) + 1 := by
    simp; omega
  rw [hsplit]
  simp only [tokenize, Bool.false_eq_true, if_false]
  rw [hlen, tokenizeLoop_delim _ u _ c [] hu,
    tokenizeLoop_run c v hvne hv k _ _ (by omega)]
  simp

/-- Witness for C10: `a  b` with two spaces splits into `a`, the empty token and `b`. -/
theorem tokenize_word_level_witness :
    (['a', ' ', ' ', 'b'] : Str) ≠ [] ∧ (['a', ' ', ' ', 'b'] : Str).getLast? ≠ some ' ' ∧
      (tokenize ['a', ' ', ' ', 'b'] [] false ' ').length =
        (['a', ' ', ' ', 'b'] : Str).count ' ' + 1 ∧
      (∀ t ∈ tokenize ['a', ' ', ' ', 'b'] [] false ' ', ' ' ∉ t) ∧
      List.intercalate [' '] (tokenize ['a', ' ', ' ', 'b'] [] false ' ') =
        ['a', ' ', ' ', 'b'] ∧
      tokenize ['a', ' ', ' ', 'b'] [] false ' ' = [['a'], [], ['b']] :=
  ⟨by decide, by decide,
    (tokenize_word_level ' ' ['a', ' ', ' ', 'b'] (by decide) (by decide)).1,
    (tokenize_word_level ' ' ['a', ' ', ' ', 'b'] (by decide) (by decide)).2.1,
    (tokenize_word_level ' ' ['a', ' ', ' ', 'b'] (by decide) (by decide)).2.2.1,
    by decide⟩

/-- C11, as stated, fails: for the hypothesis `x` and a reference of `2 ^ 32` letters
`a` at character level, `compute` returns second component `0`, not the number
`2 ^ 32` of reference tokens. -/
theorem compute_snd_counterexample :
    compute ['x'] (List.replicate (2 ^ 32) 'a') true = Outcome.ok (1, 0) ∧
      (tokenize (List.replicate (2 ^ 32) 'a') [] true WHITESPACE).length = 2 ^ 32 ∧
      (0 : Nat) ≠ 2 ^ 32 := by
  refine ⟨compute_wrapped_reference 'x' _ (List.length_replicate _ _), ?_, by norm_num⟩
  rw [tokenize_char_eq, List.nil_append, List.length_map, List.length_replicate]

/-- C11, amended: for every pair of strings whose reference has `n < 2 ^ 32` tokens in
the chosen mode, the second component of whatever `compute` returns is `n`, the same
for every hypothesis; a pair is returned whenever the table size is below `2 ^ 32`. -/
theorem compute_snd_is_ref_length (hypo hypo' ref : Str) (char_level : Bool)
    (hn : (tokenize ref [] char_level WHITESPACE).length < 2 ^ 32) :
    (∀ e r, compute hypo ref char_level = Outcome.ok (e, r) →
        r = (tokenize ref [] char_level WHITESPACE).length) ∧
      (∀ e r e' r', compute hypo ref char_level = Outcome.ok (e, r) →
        compute hypo' ref char_level = Outcome.ok (e', r') → r = r') ∧
      (((tokenize hypo [] char_level WHITESPACE).length + 1) *
          ((tokenize ref [] char_level WHITESPACE).length + 1) < 2 ^ 32 →
        ∃ e, compute hypo ref char_level =
          Outcome.ok (e, (tokenize ref [] char_level WHITESPACE).length)) := by
  have key : ∀ (h : Str) (e r : Nat), compute h ref char_level = Outcome.ok (e, r) →
      r = (tokenize ref [] char_level WHITESPACE).length := by
    intro h e r hc
    obtain ⟨_, _, hr, _⟩ := compute_ok_bounds h ref char_level e r hc
    rw [hr, u32_of_lt hn]
  exact ⟨fun e r h => key hypo e r h,
    fun e r e' r' h h' => (key hypo e r h).trans (key hypo' e' r' h').symm,
    fun hsize => ⟨_, compute_of_fits hypo ref char_level hsize⟩⟩

/-- Witness for the amended C11: the hypotheses `a b c` and `d` against the reference
`a b`, at word level, both return the second component 2. -/
theorem compute_snd_is_ref_length_witness :
    (tokenize ['a', ' ', 'b'] [] false WHITESPACE).length < 2 ^ 32 ∧
      compute ['a', ' ', 'b', ' ', 'c'] ['a', ' ', 'b'] false = Outcome.ok (1, 2) ∧
      compute ['d'] ['a', ' ', 'b'] false = Outcome.ok (2, 2) ∧
      (2 : Nat) = (tokenize ['a', ' ', 'b'] [] false WHITESPACE).length ∧
      (2 : Nat) = 2 :=
  ⟨by decide, by decide, by decide,
    (compute_snd_is_ref_length ['a', ' ', 'b', ' ', 'c'] ['d'] ['a', ' ', 'b'] false
      (by decide)).1 1 2 (by decide),
    (compute_snd_is_ref_length ['a', ' ', 'b', ' ', 'c'] ['d'] ['a', ' ', 'b'] false
      (by decide)).2.1 1 2 2 2 (by decide) (by decide)⟩

/-- C12, as stated, fails: for the empty hypothesis and a reference of `2 ^ 32` letters
`a` at character level, `compute` returns the edit count `0`, not the token count
`2 ^ 32` of the reference. -/
theorem compute_empty_side_counterexample :
    compute [] (List.replicate (2 ^ 32) 'a') true = Outcome.ok (0, 0) ∧
      (tokenize (List.replicate (2 ^ 32) 'a') [] true WHITESPACE).length = 2 ^ 32 ∧
      (0 : Nat) ≠ 2 ^ 32 := by
  refine ⟨compute_nil_wrapped _ (List.length_replicate _ _), ?_, by norm_num⟩
  rw [tokenize_char_eq, List.nil_append, List.length_map, List.length_replicate]

/-- C12, amended: for every string `s` with `k` tokens in the chosen mode and
`k + 1 < 2 ^ 32`, `compute("", s)` and `compute(s, "")` both have edit count `k`, and
`compute("", "")` is `(0, 0)`. -/
theorem compute_empty_side (s : Str) (char_level : Bool)
    (hsize : (tokenize s [] char_level WHITESPACE).length + 1 < 2 ^ 32) :
    compute [] s char_level =
        Outcome.ok ((tokenize s [] char_level WHITESPACE).length,
          (tokenize s [] char_level WHITESPACE).length) ∧
      compute s [] char_level =
        Outcome.ok ((tokenize s [] char_level WHITESPACE).length, 0) ∧
      compute [] [] char_level = Outcome.ok (0, 0) := by
  have hnil := tokenize_nil char_level WHITESPACE
  refine ⟨?_, ?_, ?_⟩
  · rw [compute_of_fits [] s char_level (by rw [hnil]; simpa using hsize), hnil,
      lev_nil_left]
  · rw [compute_of_fits s [] char_level (by rw [hnil]; simpa using hsize), hnil,
      lev_nil_right]
    rfl
  · rw [compute_of_fits [] [] char_level (by rw [hnil]; norm_num), hnil]
    rfl

/-- Witness for the amended C12: the string `a b c`, at word level. -/
theorem compute_empty_side_witness :
    (tokenize ['a', ' ', 'b', ' ', 'c'] [] false WHITESPACE).length + 1 < 2 ^ 32 ∧
      compute [] ['a', ' ', 'b', ' ', 'c'] false =
        Outcome.ok ((tokenize ['a', ' ', 'b', ' ', 'c'] [] false WHITESPACE).length,
          (tokenize ['a', ' ', 'b', ' ', 'c'] [] false WHITESPACE).length) ∧
      compute ['a', ' ', 'b', ' ', 'c'] [] false =
        Outcome.ok ((tokenize ['a', ' ', 'b', ' ', 'c'] [] false WHITESPACE).length, 0) ∧
      compute [] [] false = Outcome.ok (0, 0) :=
  ⟨by decide, compute_empty_side ['a', ' ', 'b', ' ', 'c'] false (by decide)⟩

/-- C13, the code at a failing input: for two strings of 65535 letters `b` at character
level both 32-bit dimensions are `65536`, their 32-bit product, the table size, is
`0`, the index `0 * n + 0` of the first write is not inside the table, and `compute`
stops on that access. -/
theorem compute_table_size_overflow :
    (tokenize (List.replicate 65535 'b') [] true WHITESPACE).length = 65535 ∧
      u32 (65535 + 1) = 65536 ∧
      (List.replicate (u32 (u32 (65535 + 1) * u32 (65535 + 1))) 0).length = 0 ∧
      ¬ (0 * u32 (65535 + 1) + 0 <
        (List.replicate (u32 (u32 (65535 + 1) * u32 (65535 + 1))) 0).length) ∧
      compute (List.replicate 65535 'b') (List.replicate 65535 'b') true =
        Outcome.fail Failure.outOfBounds := by
  have h1 : u32 (65535 + 1) = 65536 := by unfold u32; norm_num
  have h2 : u32 (65536 * 65536) = 0 := by unfold u32; norm_num
  refine ⟨?_, h1, ?_, ?_, compute_self_overflow _ (List.length_replicate _ _)⟩
  · rw [tokenize_char_eq, List.nil_append, List.length_map, List.length_replicate]
  · rw [h1, h2]; rfl
  · rw [h1, h2]; simp

/-- C14: `round_to_digits` stops on its assertion exactly when `digits > 6`; the table
has seven entries, and for every `k` from 0 to 6 the lookup of entry `k` is in bounds,
the entry is exactly `10 ^ k`, and the function returns a value. -/
theorem round_to_digits_assertion (d : Double) (digits : Nat) :
    (round_to_digits d digits = Outcome.fail Failure.assertion ↔ 6 < digits) ∧
      pow10.length = 7 ∧
      ∀ k, k ≤ 6 → ∃ p v, vecGet pow10 k = Outcome.ok p ∧
        p.toRat = some ((10 : ℚ) ^ k) ∧ round_to_digits d k = Outcome.ok v := by
  refine ⟨round_to_digits_assertion_iff d digits, rfl, fun k hk => ?_⟩
  have hlt : 10 ^ k < 2 ^ 53 := by
    have : 10 ^ k ≤ 10 ^ 6 := Nat.pow_le_pow_right (by norm_num) hk
    exact lt_of_le_of_lt this (by norm_num)
  refine ⟨Double.ofNat (10 ^ k), _, vecGet_eq_ok (pow10_getElem? k hk), ?_,
    round_to_digits_eq d k hk⟩
  rw [Double.toRat_ofNat hlt]
  push_cast
  rfl

/-- Witness for C14: `digits = 7` stops on the assertion, `digits = 6` returns with the
multiplier `10 ^ 6`. -/
theorem round_to_digits_assertion_witness :
    round_to_digits (Double.ofNat 1) 7 = Outcome.fail Failure.assertion ∧
      (∃ p v, vecGet pow10 6 = Outcome.ok p ∧ p.toRat = some ((10 : ℚ) ^ 6) ∧
        round_to_digits (Double.ofNat 1) 6 = Outcome.ok v) ∧
      round_to_digits (Double.ofNat 1) 6 = Outcome.ok (Double.ofNat 1) :=
  ⟨(round_to_digits_assertion (Double.ofNat 1) 7).1.mpr (by decide),
    (round_to_digits_assertion (Double.ofNat 1) 7).2.2 6 (by decide), by decide⟩

/-- C15, the code at a failing input: for the string `s` of 65535 letters `b` as
hypothesis and as reference at character level the reference length `65535` is
positive and the claim asks for a finite score, but `score_sent(s, s)` and
`score([s], [s])` stop on the access outside the table in `compute`: no number is
returned. -/
theorem score_table_overflow :
    (tokenize (List.replicate 65535 'b') [] true WHITESPACE).length = 65535 ∧
      0 < (tokenize (List.replicate 65535 'b') [] true WHITESPACE).length ∧
      score_sent (List.replicate 65535 'b') (List.replicate 65535 'b') true =
        Outcome.fail Failure.outOfBounds ∧
      score [List.replicate 65535 'b'] [List.replicate 65535 'b'] true =
        Outcome.fail Failure.outOfBounds := by
  have hlen : (tokenize (List.replicate 65535 'b') [] true WHITESPACE).length = 65535 := by
    rw [tokenize_char_eq, List.nil_append, List.length_map, List.length_replicate]
  have hc := compute_self_overflow (List.replicate 65535 'b') (List.length_replicate _ _)
  have hs : score_sent (List.replicate 65535 'b') (List.replicate 65535 'b') true =
      Outcome.fail Failure.outOfBounds := by
    unfold score_sent
    rw [hc]
    rfl
  refine ⟨hlen, by rw [hlen]; norm_num, hs, ?_⟩
  rw [score_single, hs]

/-- C16: word-level tokenization drops one final empty segment and nothing else.  The
empty string has no tokens; a single delimiter appended to a non-empty string that does
not end in the delimiter changes nothing; a delimiter appended to a string that is empty
or ends in the delimiter adds one empty token; and the tokens are the literal split of
the string on the delimiter without its last segment when that segment is empty. -/
theorem tokenize_drops_final_empty (c : Char) (s : Str) :
    tokenize [] [] false c = [] ∧
      (s ≠ [] → s.getLast? ≠ some c →
        tokenize (s ++ [c]) [] false c = tokenize s [] false c) ∧
      (s = [] ∨ s.getLast? = some c →
        tokenize (s ++ [c]) [] false c = tokenize s [] false c ++ [[]]) ∧
      tokenize s [] false c = dropFinalEmpty (splitLiteral c s) ∧
      splitLiteral c s = s.splitOn c := by
  refine ⟨rfl, ?_, ?_, tokenize_word_eq_split c s, splitLiteral_eq_splitOn c s⟩
  · intro hne hend
    have hlast : (splitLiteral c s).getLast? ≠ some [] := by
      intro h
      rcases (splitLiteral_getLast_eq_nil_iff c s).mp h with h' | h'
      · exact hne h'
      · exact hend h'
    rw [tokenize_word_eq_split, tokenize_word_eq_split, splitLiteral_snoc_delim,
      dropFinalEmpty_concat_nil]
    unfold dropFinalEmpty
    rw [if_neg hlast]
  · intro h
    have hlast := (splitLiteral_getLast_eq_nil_iff c s).mpr h
    rw [tokenize_word_eq_split, tokenize_word_eq_split, splitLiteral_snoc_delim,
      dropFinalEmpty_concat_nil]
    unfold dropFinalEmpty
    rw [if_pos hlast]
    obtain ⟨init, hinit⟩ := List.getLast?_eq_some_iff.mp hlast
    rw [hinit, List.dropLast_concat]

/-- Witness for C16: `a b` and `a b ` both give the tokens `a`, `b`; `a b  ` with two
trailing spaces gives `a`, `b` and one empty token. -/
theorem tokenize_drops_final_empty_witness :
    tokenize (['a', ' ', 'b'] ++ [' ']) [] false ' ' = tokenize ['a', ' ', 'b'] [] false ' ' ∧
      tokenize ['a', ' ', 'b'] [] false ' ' = [['a'], ['b']] ∧
      tokenize (['a', ' ', 'b', ' '] ++ [' ']) [] false ' ' =
        tokenize ['a', ' ', 'b', ' '] [] false ' ' ++ [[]] ∧
      tokenize ['a', ' ', 'b', ' ', ' '] [] false ' ' = [['a'], ['b'], []] ∧
      splitLiteral ' ' ['a', ' ', 'b', ' ', ' '] = [['a'], ['b'], [], []] :=
  ⟨(tokenize_drops_final_empty ' ' ['a', ' ', 'b']).2.1 (by decide) (by decide),
    by decide,
    (tokenize_drops_final_empty ' ' ['a', ' ', 'b', ' ']).2.2.1 (by decide),
    by decide, by decide⟩

/-- C17: when the table size is below `2 ^ 32`, `compute` returns an edit count that is
`0` exactly when hypothesis and reference have the same token sequence. -/
theorem compute_zero_iff_same_tokens (hypo ref : Str) (char_level : Bool)
    (hsize : ((tokenize hypo [] char_level WHITESPACE).length + 1) *
      ((tokenize ref [] char_level WHITESPACE).length + 1) < 2 ^ 32) :
    ∃ e r, compute hypo ref char_level = Outcome.ok (e, r) ∧
      (e = 0 ↔ tokenize hypo [] char_level WHITESPACE =
        tokenize ref [] char_level WHITESPACE) :=
  ⟨_, _, compute_of_fits hypo ref char_level hsize, lev_eq_zero_iff _ _⟩

/-- Witness for C17: the different strings `a b` and `a b ` have the same tokens at
word level and edit count `0`. -/
theorem compute_zero_iff_same_tokens_witness :
    ((tokenize ['a', ' ', 'b'] [] false WHITESPACE).length + 1) *
        ((tokenize ['a', ' ', 'b', ' '] [] false WHITESPACE).length + 1) < 2 ^ 32 ∧
      (∃ e r, compute ['a', ' ', 'b'] ['a', ' ', 'b', ' '] false = Outcome.ok (e, r) ∧
        (e = 0 ↔ tokenize ['a', ' ', 'b'] [] false WHITESPACE =
          tokenize ['a', ' ', 'b', ' '] [] false WHITESPACE)) ∧
      (['a', ' ', 'b'] : Str) ≠ ['a', ' ', 'b', ' '] ∧
      tokenize ['a', ' ', 'b'] [] false WHITESPACE =
        tokenize ['a', ' ', 'b', ' '] [] false WHITESPACE ∧
      compute ['a', ' ', 'b'] ['a', ' ', 'b', ' '] false = Outcome.ok (0, 2) :=
  ⟨by decide,
    compute_zero_iff_same_tokens ['a', ' ', 'b'] ['a', ' ', 'b', ' '] false (by decide),
    by decide, by decide, by decide⟩

/-- C18: batch scoring of one pair agrees with single-pair scoring, for all strings and
either mode, failing runs included.  In general, on a batch whose pairs all return, the
loop of `score` leaves the zero-initialised entries in front of the appended pairs in
the `stats` vector, and the totals are accumulated from the appended pairs only. -/
theorem score_singleton_eq_score_sent (h r : Str) (char_level : Bool) :
    score [h] [r] char_level = score_sent h r char_level ∧
      ∀ (hypo ref : List Str) (stats : List (Nat × Nat)), hypo.length = ref.length →
        List.zipWith (fun a b => compute a b char_level) hypo ref = stats.map Outcome.ok →
        forLoop (scoreStep hypo ref char_level) hypo.length 0
            ⟨List.replicate hypo.length (0, 0), Double.ofNat 0, Double.ofNat 0⟩ =
          Outcome.ok ⟨List.replicate hypo.length (0, 0) ++ stats,
            accumulate (stats.map Prod.fst), accumulate (stats.map Prod.snd)⟩ :=
  ⟨score_single h r char_level,
    fun hypo ref stats hlen hstats => score_loop hypo ref char_level stats hlen hstats⟩

/-- Witness for C18: the pair `a b c`, `a b d` at word level scores `33.3333` both ways,
and the batch `["a b", "c"]`, `["a b", "d"]` ends the loop with the two zero entries
followed by `(0, 2)` and `(1, 1)`. -/
theorem score_singleton_eq_score_sent_witness :
    score [['a', ' ', 'b', ' ', 'c']] [['a', ' ', 'b', ' ', 'd']] false =
        score_sent ['a', ' ', 'b', ' ', 'c'] ['a', ' ', 'b', ' ', 'd'] false ∧
      score [['a', ' ', 'b', ' ', 'c']] [['a', ' ', 'b', ' ', 'd']] false =
        Outcome.ok (Double.ofDecimal 333333 10000) ∧
      forLoop (scoreStep [['a', ' ', 'b'], ['c']] [['a', ' ', 'b'], ['d']] false)
          [['a', ' ', 'b'], ['c']].length 0
          ⟨List.replicate [['a', ' ', 'b'], ['c']].length (0, 0), Double.ofNat 0,
            Double.ofNat 0⟩ =
        Outcome.ok ⟨List.replicate [['a', ' ', 'b'], ['c']].length (0, 0) ++
            [(0, 2), (1, 1)],
          accumulate ([(0, 2), (1, 1)].map Prod.fst),
          accumulate ([(0, 2), (1, 1)].map Prod.snd)⟩ :=
  ⟨(score_singleton_eq_score_sent ['a', ' ', 'b', ' ', 'c'] ['a', ' ', 'b', ' ', 'd']
      false).1, by decide,
    (score_singleton_eq_score_sent [] [] false).2 [['a', ' ', 'b'], ['c']]
      [['a', ' ', 'b'], ['d']] [(0, 2), (1, 1)] (by decide) (by decide)⟩

/-- C19: flat indexing of the table is sound when the size fits.  For token sequences
with `m = |H| + 1`, `n = |R| + 1` and `m * n < 2 ^ 32`: the table has `m * n` cells,
every index `i * n + j` with `i < m`, `j < n` is below `m * n`, distinct pairs have
distinct indices, the loops never read a cell that has not been written (the
instrumented run returns, with every cell written and equal to the cell of the plain
run), and the returned cell `m * n - 1` is the cell of row `m - 1` and column `n - 1`. -/
theorem flat_indexing_sound (H R : List Str)
    (hfit : (H.length + 1) * (R.length + 1) < 2 ^ 32) :
    (List.replicate (u32 (u32 (H.length + 1) * u32 (R.length + 1))) 0).length =
        (H.length + 1) * (R.length + 1) ∧
      (∀ i j, i < H.length + 1 → j < R.length + 1 →
        i * (R.length + 1) + j < (H.length + 1) * (R.length + 1)) ∧
      (∀ i j i' j', j < R.length + 1 → j' < R.length + 1 →
        i' * (R.length + 1) + j' = i * (R.length + 1) + j → i' = i ∧ j' = j) ∧
      (∃ g f,
        fillTableW H R (H.length + 1) (R.length + 1)
            (List.replicate ((H.length + 1) * (R.length + 1)) none) = Outcome.ok g ∧
          fillTable H R (H.length + 1) (R.length + 1)
            (List.replicate ((H.length + 1) * (R.length + 1)) 0) = Outcome.ok f ∧
          ∀ i j, i < H.length + 1 → j < R.length + 1 →
            ∃ v, g[i * (R.length + 1) + j]? = some (some v) ∧
              f[i * (R.length + 1) + j]? = some v) ∧
      u32sub ((H.length + 1) * (R.length + 1)) 1 =
        (H.length + 1 - 1) * (R.length + 1) + (R.length + 1 - 1) := by
  have hH : H.length + 1 < 2 ^ 32 :=
    lt_of_le_of_lt (Nat.le_mul_of_pos_right _ (by omega)) hfit
  have hR : R.length + 1 < 2 ^ 32 :=
    lt_of_le_of_lt (Nat.le_mul_of_pos_left _ (by omega)) hfit
  refine ⟨?_, fun i j hi hj => table_index_lt hi hj,
    fun i j i' j' hj hj' h => table_index_inj _ i j i' j' hj hj' h, ?_, ?_⟩
  · rw [u32_of_lt hH, u32_of_lt hR, u32_of_lt hfit, List.length_replicate]
  · obtain ⟨g, hg, _, hgc⟩ := fillTableW_spec H R (H.length + 1) (R.length + 1)
      (by omega) (by omega) (le_refl _) (le_refl _) hfit
    obtain ⟨f, hf, _, hfc⟩ := fillTable_spec H R (H.length + 1) (R.length + 1)
      (by omega) (by omega) (le_refl _) (le_refl _) hfit
    exact ⟨g, f, hg, hf, fun i j hi hj => ⟨_, hgc i j hi hj, hfc i j hi hj⟩⟩
  · have hpos : 1 ≤ (H.length + 1) * (R.length + 1) := Nat.mul_pos (by omega) (by omega)
    have hsplit : (H.length + 1 - 1) * (R.length + 1) + (R.length + 1 - 1) =
        (H.length + 1) * (R.length + 1) - 1 := by
      simp only [Nat.add_sub_cancel, Nat.add_mul, Nat.one_mul]
      omega
    rw [hsplit]
    unfold u32sub
    rw [u32_of_lt hfit, u32_of_lt (by norm_num)]
    omega

/-- Witness for C19: the token sequences `a`, `b` and `a`, a table of three rows and
two columns. -/
theorem flat_indexing_sound_witness :
    (([['a'], ['b']] : List Str).length + 1) * (([['a']] : List Str).length + 1) < 2 ^ 32 ∧
      (∃ g f,
        fillTableW [['a'], ['b']] [['a']] (([['a'], ['b']] : List Str).length + 1)
            (([['a']] : List Str).length + 1)
            (List.replicate ((([['a'], ['b']] : List Str).length + 1) *
              (([['a']] : List Str).length + 1)) none) = Outcome.ok g ∧
          fillTable [['a'], ['b']] [['a']] (([['a'], ['b']] : List Str).length + 1)
            (([['a']] : List Str).length + 1)
            (List.replicate ((([['a'], ['b']] : List Str).length + 1) *
              (([['a']] : List Str).length + 1)) 0) = Outcome.ok f ∧
          ∀ i j, i < ([['a'], ['b']] : List Str).length + 1 →
            j < ([['a']] : List Str).length + 1 →
            ∃ v, g[i * (([['a']] : List Str).length + 1) + j]? = some (some v) ∧
              f[i * (([['a']] : List Str).length + 1) + j]? = some v) ∧
      fillTableW [['a'], ['b']] [['a']] 3 2 (List.replicate 6 none) =
        Outcome.ok [some 0, some 1, some 1, some 0, some 2, some 1] ∧
      fillTable [['a'], ['b']] [['a']] 3 2 (List.replicate 6 0) =
        Outcome.ok [0, 1, 1, 0, 2, 1] :=
  ⟨by decide, (flat_indexing_sound [['a'], ['b']] [['a']] (by decide)).2.2.2.1,
    by decide, by decide⟩

/-- C20: the error rate is not bounded by `100`.  Some pair with a non-empty reference
scores above `100` (`a b c` against `d` at word level scores `300`).  For every pair
with at least one reference token, whatever edit count `e` `compute` returns satisfies
`0 ≤ 100 * e / n ≤ 100 * max m n / n` (`m`, `n` the token counts), and `compute` does
return when the table size is below `2 ^ 32`. -/
theorem error_rate_bounds (hypo ref : Str) (char_level : Bool)
    (hn : 1 ≤ (tokenize ref [] char_level WHITESPACE).length) :
    (∀ e r, compute hypo ref char_level = Outcome.ok (e, r) →
        (0 : ℚ) ≤ 100 * (e : ℚ) / ((tokenize ref [] char_level WHITESPACE).length : ℚ) ∧
        100 * (e : ℚ) / ((tokenize ref [] char_level WHITESPACE).length : ℚ) ≤
          100 * ((max (tokenize hypo [] char_level WHITESPACE).length
            (tokenize ref [] char_level WHITESPACE).length : Nat) : ℚ) /
            ((tokenize ref [] char_level WHITESPACE).length : ℚ)) ∧
      (((tokenize hypo [] char_level WHITESPACE).length + 1) *
          ((tokenize ref [] char_level WHITESPACE).length + 1) < 2 ^ 32 →
        ∃ e, compute hypo ref char_level =
          Outcome.ok (e, (tokenize ref [] char_level WHITESPACE).length)) ∧
      (∃ (h r : Str) (v : Double), 1 ≤ (tokenize r [] false WHITESPACE).length ∧
        score_sent h r false = Outcome.ok v ∧ Double.lt (Double.ofNat 100) v = true) := by
  refine ⟨fun e r h => ?_, fun hsize => ⟨_, compute_of_fits hypo ref char_level hsize⟩,
    ⟨['a', ' ', 'b', ' ', 'c'], ['d'], Double.ofNat 300, by decide, by decide, by decide⟩⟩
  obtain ⟨hle, _⟩ := compute_ok_bounds hypo ref char_level e r h
  have hpos : (0 : ℚ) < ((tokenize ref [] char_level WHITESPACE).length : ℚ) := by
    exact_mod_cast hn
  have hle' : (e : ℚ) ≤ ((max (tokenize hypo [] char_level WHITESPACE).length
      (tokenize ref [] char_level WHITESPACE).length : Nat) : ℚ) := by
    exact_mod_cast hle
  constructor
  · positivity
  · apply div_le_div_of_nonneg_right _ hpos.le
    linarith

/-- Witness for C20: `a b c` against `d` at word level has edit count 3 over one
reference token and scores `300`, which is above `100`. -/
theorem error_rate_bounds_witness :
    1 ≤ (tokenize ['d'] [] false WHITESPACE).length ∧
      compute ['a', ' ', 'b', ' ', 'c'] ['d'] false = Outcome.ok (3, 1) ∧
      score_sent ['a', ' ', 'b', ' ', 'c'] ['d'] false = Outcome.ok (Double.ofNat 300) ∧
      Double.lt (Double.ofNat 100) (Double.ofNat 300) = true ∧
      ((0 : ℚ) ≤ 100 * ((3 : Nat) : ℚ) / ((tokenize ['d'] [] false WHITESPACE).length : ℚ) ∧
        100 * ((3 : Nat) : ℚ) / ((tokenize ['d'] [] false WHITESPACE).length : ℚ) ≤
          100 * ((max (tokenize ['a', ' ', 'b', ' ', 'c'] [] false WHITESPACE).length
            (tokenize ['d'] [] false WHITESPACE).length : Nat) : ℚ) /
            ((tokenize ['d'] [] false WHITESPACE).length : ℚ)) :=
  ⟨by decide, by decide, by decide, by decide,
    (error_rate_bounds ['a', ' ', 'b', ' ', 'c'] ['d'] false (by decide)).1 3 1
      (by decide)⟩

